import Mathlib

/-!
# pdfcpu: the PDF dictionary (pkg/pdfcpu/dict.go)

A shallow embedding of `PDFDict` and of the operations declared in dict.go,
followed by the properties proved about them.

Modelling conventions.

* A Go `string` is a Lean `String`; Go compares strings byte by byte, which on
  UTF-8 text is the lexicographic order of the code points (`strLE`).
* A Go `map[string]Object` is an association list.  The order of the list
  stands for the unspecified iteration order of the map; the first binding of
  a key is the one the map holds.  `mapIndex`, `mapAssign`, `mapDelete`,
  `mapKeys` and `mapLen` are the map primitives of the language.
* A method with a pointer receiver that mutates the dictionary returns the new
  dictionary next to its Go results.
* A Go pointer result (`*bool`, `*int`, `*PDFDict`, ...) is an `Option`;
  `nil` is `none`.
* `Integer` is a machine integer.  dict.go only moves such values around
  (`int(pdfInt)`, `int64(pdfInt)`, `ObjectNumber.Value()`), it never computes
  with them, so they are carried as `Int` and the conversions are the
  identity.
* Logging calls (`log.Debug.Printf`) have no effect on results and are left
  out; `log.Info.Fatalf` ends the program and is the result `none` of
  `PDFString`.
* The variant types other than the dictionary, with their `String` and
  `PDFString` methods, are declared in other files of the package.  Where the
  specification fixes a textual form it is modelled from there (`Name.PDFString`,
  `Integer.String`, ...); where it does not, the method is a field of `Methods`
  and a statement holds for all of them or names what it needs of them
  (`ReadBack`).
* Both serializers recurse into nested dictionaries.  The recursion is
  structural: the values of a map are rendered entry by entry
  (`entriesPDFString`, `entriesIndentedString`) and the loop over the sorted
  keys reads the rendering of each key; `PDFString_loop` restates the loop as
  the source has it, looking the value up and rendering it.
-/

namespace Pdfcpu

/-! ## Data model -/

/-- An indirect reference: object number and generation number. -/
structure IndirectRef where
  ObjectNumber : Int
  GenerationNumber : Int
deriving DecidableEq, Repr

/-- The values a dictionary entry may hold (the Go interface `Object` and the
types of the package that implement it).  `nil` is the nil interface value,
`Float` carries the bit pattern of a 32-bit float, `StreamDict` carries its
dictionary and the stream bytes, and `other` stands for a value of any type
outside the package's set, identified by a tag. -/
inductive Object where
  | nil
  | Boolean (b : Bool)
  | Integer (i : Int)
  | Float (bits : Nat)
  | Name (s : String)
  | StringLiteral (s : String)
  | HexLiteral (s : String)
  | IndirectRef (ref : IndirectRef)
  | Array (a : List Object)
  | PDFDict (entries : List (String × Object))
  | StreamDict (entries : List (String × Object)) (stream : List Nat)
  | other (tag : Nat)

/-- PDFDict represents a PDF dict object. -/
structure PDFDict where
  Dict : List (String × Object)

/-- StreamDict: a dictionary together with its stream. -/
structure StreamDict where
  Dict : List (String × Object)
  Stream : List Nat

/-! ## Go map primitives -/

/-- The comma-ok index expression `value, found = m[key]`: the zero value
`nil` and `false` when the key is absent. -/
def mapIndex (m : List (String × Object)) (key : String) : Object × Bool :=
  match m.lookup key with
  | some v => (v, true)
  | none => (Object.nil, false)

/-- The assignment `m[key] = value`. -/
def mapAssign (m : List (String × Object)) (key : String) (value : Object) :
    List (String × Object) :=
  (key, value) :: m.filter (fun e => e.1 != key)

/-- The builtin `delete(m, key)`. -/
def mapDelete (m : List (String × Object)) (key : String) : List (String × Object) :=
  m.filter (fun e => e.1 != key)

/-- The keys produced by `for k := range m`: each key once. -/
def mapKeys : List (String × Object) → List String
  | [] => []
  | (k, _) :: m => k :: (mapKeys m).filter (fun x => x != k)

/-- The builtin `len(m)`: the number of keys. -/
def mapLen (m : List (String × Object)) : Nat := (mapKeys m).length

/-! ## Construction, mutation, lookup -/

/-- NewPDFDict returns a new PDFDict object. -/
def NewPDFDict : PDFDict := ⟨[]⟩

/-- Len returns the length of this PDFDict. -/
def PDFDict.Len (d : PDFDict) : Nat := mapLen d.Dict

/-- Find returns the Object for given key and PDFDict. -/
def PDFDict.Find (d : PDFDict) (key : String) : Object × Bool :=
  mapIndex d.Dict key

/-- Insert adds a new entry to this PDFDict. -/
def PDFDict.Insert (d : PDFDict) (key : String) (value : Object) : PDFDict × Bool :=
  if (d.Find key).2 then (d, false)
  else (⟨mapAssign d.Dict key value⟩, true)

/-- InsertInt adds a new int entry to this PDFDict. -/
def PDFDict.InsertInt (d : PDFDict) (key : String) (value : Int) : PDFDict :=
  (d.Insert key (Object.Integer value)).1

/-- InsertFloat adds a new float entry to this PDFDict. -/
def PDFDict.InsertFloat (d : PDFDict) (key : String) (value : Nat) : PDFDict :=
  (d.Insert key (Object.Float value)).1

/-- InsertString adds a new string entry to this PDFDict. -/
def PDFDict.InsertString (d : PDFDict) (key value : String) : PDFDict :=
  (d.Insert key (Object.StringLiteral value)).1

/-- InsertName adds a new name entry to this PDFDict. -/
def PDFDict.InsertName (d : PDFDict) (key value : String) : PDFDict :=
  (d.Insert key (Object.Name value)).1

/-- Update modifies an existing entry of this PDFDict. -/
def PDFDict.Update (d : PDFDict) (key : String) (value : Object) : PDFDict :=
  match value with
  | Object.nil => d
  | v => ⟨mapAssign d.Dict key v⟩

/-- Delete deletes the Object for given key. -/
def PDFDict.Delete (d : PDFDict) (key : String) : PDFDict × Object :=
  match d.Find key with
  | (_, false) => (d, Object.nil)
  | (value, true) => (⟨mapDelete d.Dict key⟩, value)

/-- Entry returns the value for given key, and the error if there is one. -/
def PDFDict.Entry (d : PDFDict) (dictName key : String) (required : Bool) :
    Object × Option String :=
  match d.Find key with
  | (_, false) | (Object.nil, _) =>
    if required then
      (Object.nil, some ("dict=" ++ dictName ++ " required entry=" ++ key ++ " missing"))
    else (Object.nil, none)
  | (obj, true) => (obj, none)

/-! ## Typed entry accessors -/

/-- BooleanEntry expects and returns a BooleanEntry for given key. -/
def PDFDict.BooleanEntry (d : PDFDict) (key : String) : Option Bool :=
  match d.Find key with
  | (_, false) => none
  | (Object.Boolean b, true) => some b
  | _ => none

/-- StringEntry expects and returns a StringLiteral entry for given key. -/
def PDFDict.StringEntry (d : PDFDict) (key : String) : Option String :=
  match d.Find key with
  | (_, false) => none
  | (Object.StringLiteral s, true) => some s
  | _ => none

/-- NameEntry expects and returns a Name entry for given key. -/
def PDFDict.NameEntry (d : PDFDict) (key : String) : Option String :=
  match d.Find key with
  | (_, false) => none
  | (Object.Name s, true) => some s
  | _ => none

/-- IntEntry expects and returns a Integer entry for given key. -/
def PDFDict.IntEntry (d : PDFDict) (key : String) : Option Int :=
  match d.Find key with
  | (_, false) => none
  | (Object.Integer i, true) => some i
  | _ => none

/-- Int64Entry expects and returns a Integer entry representing an int64 value
for given key. -/
def PDFDict.Int64Entry (d : PDFDict) (key : String) : Option Int :=
  match d.Find key with
  | (_, false) => none
  | (Object.Integer i, true) => some i
  | _ => none

/-- IndirectRefEntry returns an indirectRefEntry for given key for this
dictionary. -/
def PDFDict.IndirectRefEntry (d : PDFDict) (key : String) : Option IndirectRef :=
  match d.Find key with
  | (_, false) => none
  | (Object.IndirectRef r, true) => some r
  | _ => none

/-- PDFDictEntry expects and returns a PDFDict entry for given key. -/
def PDFDict.PDFDictEntry (d : PDFDict) (key : String) : Option PDFDict :=
  match d.Find key with
  | (_, false) => none
  | (Object.PDFDict es, true) => some ⟨es⟩
  | _ => none

/-- StreamDictEntry expects and returns a StreamDict entry for given key. -/
def PDFDict.StreamDictEntry (d : PDFDict) (key : String) : Option StreamDict :=
  match d.Find key with
  | (_, false) => none
  | (Object.StreamDict es st, true) => some ⟨es, st⟩
  | _ => none

/-- ArrayEntry expects and returns a Array entry for given key. -/
def PDFDict.ArrayEntry (d : PDFDict) (key : String) : Option (List Object) :=
  match d.Find key with
  | (_, false) => none
  | (Object.Array a, true) => some a
  | _ => none

/-- StringLiteralEntry returns a StringLiteral object for given key. -/
def PDFDict.StringLiteralEntry (d : PDFDict) (key : String) : Option String :=
  match d.Find key with
  | (_, false) => none
  | (Object.StringLiteral s, true) => some s
  | _ => none

/-- HexLiteralEntry returns a HexLiteral object for given key. -/
def PDFDict.HexLiteralEntry (d : PDFDict) (key : String) : Option String :=
  match d.Find key with
  | (_, false) => none
  | (Object.HexLiteral s, true) => some s
  | _ => none

/-- Length returns the value of the entry with key "Length", or the object
number it refers to: stream length may be referring to an indirect object. -/
def PDFDict.Length (d : PDFDict) : Option Int × Option Int :=
  match d.Int64Entry "Length" with
  | some val => (some val, none)
  | none =>
    match d.IndirectRefEntry "Length" with
    | none => (none, none)
    | some indirectRef => (none, some indirectRef.ObjectNumber)

/-- Type returns the value of the name entry for key "Type". -/
def PDFDict.Type (d : PDFDict) : Option String := d.NameEntry "Type"

/-- Subtype returns the value of the name entry for key "Subtype". -/
def PDFDict.Subtype (d : PDFDict) : Option String := d.NameEntry "Subtype"

/-- Size returns the value of the int entry for key "Size". -/
def PDFDict.Size (d : PDFDict) : Option Int := d.IntEntry "Size"

/-- IsObjStm returns true if given PDFDict is an object stream. -/
def PDFDict.IsObjStm (d : PDFDict) : Bool :=
  match d.Type with
  | none => false
  | some t => t == "ObjStm"

/-- W returns the array for key "W". -/
def PDFDict.W (d : PDFDict) : Option (List Object) := d.ArrayEntry "W"

/-- Prev returns the previous offset. -/
def PDFDict.Prev (d : PDFDict) : Option Int := d.Int64Entry "Prev"

/-- Index returns the array for key "Index". -/
def PDFDict.Index (d : PDFDict) : Option (List Object) := d.ArrayEntry "Index"

/-- N returns the int for key "N". -/
def PDFDict.N (d : PDFDict) : Option Int := d.IntEntry "N"

/-- First returns the int for key "First". -/
def PDFDict.First (d : PDFDict) : Option Int := d.IntEntry "First"

/-- IsLinearizationParmDict returns true if this dict has an int entry for key
"Linearized". -/
def PDFDict.IsLinearizationParmDict (d : PDFDict) : Bool :=
  (d.IntEntry "Linearized").isSome

/-! ## Textual forms of the other variants -/

/-- Modelled from the spec: the `String` method of `Boolean` is declared
outside dict.go; booleans render as their literal token form, `true` or
`false`. -/
def Boolean.String (b : Bool) : String := if b then "true" else "false"

/-- Modelled from the spec: the `String` method of `Integer` is declared
outside dict.go; integers render as their literal token form, the decimal
numeral. -/
def Integer.String (i : Int) : String := toString i

/-- Modelled from the spec: the `String` method of `StringLiteral` is declared
outside dict.go; string literals render with their original delimiter syntax,
the parenthesised form. -/
def StringLiteral.String (s : String) : String := "(" ++ s ++ ")"

/-- Modelled from the spec: the `String` method of `HexLiteral` is declared
outside dict.go; hex literals render with their original delimiter syntax,
the angle-bracket form. -/
def HexLiteral.String (s : String) : String := "<" ++ s ++ ">"

/-- Modelled from the spec: the `PDFString` method of `Name` is declared
outside dict.go; a name renders as the PDF `/Name` token. -/
def Name.PDFString (s : String) : String := "/" ++ s

/-- Modelled from the spec: the `PDFString` method of `IndirectRef` is declared
outside dict.go; an indirect reference renders as `objnum gennum R`. -/
def IndirectRef.PDFString (r : IndirectRef) : String :=
  Integer.String r.ObjectNumber ++ " " ++ Integer.String r.GenerationNumber ++ " R"

/-- The methods dict.go calls on values whose textual form the specification
leaves open: the `String` method of `Float`, the two serializers of `Array`
(the canonical one may end the program, as the one of the dictionary does),
and the default form `%v` of a value in the debug dump.  They are declared in
other files of the package and are parameters of the serializers. -/
structure Methods where
  floatString : Nat → String
  arrayPDFString : List Object → Option String
  arrayIndentedString : List Object → Int → String
  valueString : Object → String

/-! ## Sorting the keys -/

/-- Lexicographic comparison of two strings, character by character. -/
def leChars : List Char → List Char → Bool
  | [], _ => true
  | _ :: _, [] => false
  | a :: as, b :: bs =>
    if a.toNat < b.toNat then true
    else if b.toNat < a.toNat then false
    else leChars as bs

/-- Go's `a <= b` on strings. -/
def strLE (a b : String) : Prop := leChars a.data b.data = true

instance strLE.decidable : DecidableRel strLE := fun a b =>
  inferInstanceAs (Decidable (leChars a.data b.data = true))

/-- Go's `a < b` on strings. -/
def strLT (a b : String) : Prop := strLE a b ∧ a ≠ b

/-- The library call `sort.Strings(keys)`: the keys in increasing order. -/
def sortStrings (keys : List String) : List String := keys.insertionSort strLE

/-- The library call `strings.Repeat(s, count)`, which panics on a negative
count. -/
def stringsRepeat (s : String) (count : Int) : Option String :=
  if count < 0 then none else some (String.join (List.replicate count.toNat s))

/-! ## Serialization -/

/-- The string the loop of a serializer appends for key `k`, read from the
table of the rendered entries. -/
def tableGet (tbl : List (String × Option String)) (k : String) : Option String :=
  match tbl.lookup k with
  | some r => r
  | none => none

/-- The body of `PDFString` once the entries are rendered: the opening
bracket, the entries in the order of the sorted keys, the closing bracket. -/
def joinPDFString (keys : List String) (tbl : List (String × Option String)) :
    Option String :=
  match keys.mapM (tableGet tbl) with
  | some logstr => some (String.join (["<<"] ++ logstr ++ [">>"]))
  | none => none

mutual
/-- The string `PDFString` appends for the entry `(k, v)`; `none` is the fatal
branch for an entry of unknown object type. -/
def entryPDFString (M : Methods) (k : String) : Object → Option String
  | Object.nil => some ("/" ++ k ++ " null")
  | Object.PDFDict sub =>
    match joinPDFString (sortStrings (mapKeys sub)) (entriesPDFString M sub) with
    | some dictStr => some ("/" ++ k ++ dictStr)
    | none => none
  | Object.Array a =>
    match M.arrayPDFString a with
    | some arrStr => some ("/" ++ k ++ arrStr)
    | none => none
  | Object.IndirectRef indRef => some ("/" ++ k ++ " " ++ IndirectRef.PDFString indRef)
  | Object.Name name => some ("/" ++ k ++ Name.PDFString name)
  | Object.Integer i => some ("/" ++ k ++ " " ++ Integer.String i)
  | Object.Float f => some ("/" ++ k ++ " " ++ M.floatString f)
  | Object.Boolean b => some ("/" ++ k ++ " " ++ Boolean.String b)
  | Object.StringLiteral sl => some ("/" ++ k ++ StringLiteral.String sl)
  | Object.HexLiteral hl => some ("/" ++ k ++ HexLiteral.String hl)
  | Object.StreamDict _ _ => none
  | Object.other _ => none
/-- The entries of a map, each rendered by `entryPDFString`. -/
def entriesPDFString (M : Methods) : List (String × Object) → List (String × Option String)
  | [] => []
  | (k, v) :: rest => (k, entryPDFString M k v) :: entriesPDFString M rest
end

/-- PDFString returns a string representation as found in and written to a PDF
file; `none` when it ends the program on an entry of unknown object type.
The Go loop looks every sorted key up in the map and renders the value found;
here the values are rendered entry by entry and the loop looks the rendering
up (`PDFString_loop` states the loop in the shape of the source). -/
def PDFDict.PDFString (M : Methods) (d : PDFDict) : Option String :=
  joinPDFString (sortStrings (mapKeys d.Dict)) (entriesPDFString M d.Dict)

/-- The body of `indentedString` once the entries are rendered. -/
def joinIndentedString (level : Int) (keys : List String)
    (tbl : List (String × Option String)) : Option String :=
  match stringsRepeat "\t" level with
  | none => none
  | some tabstr =>
    match keys.mapM (fun k =>
        match tableGet tbl k with
        | some s => some (tabstr ++ "<" ++ k ++ ", " ++ s ++ ">\n")
        | none => none) with
    | none => none
    | some lines =>
      match stringsRepeat "\t" (level - 1) with
      | none => none
      | some closing => some (String.join (["<<\n"] ++ lines ++ [closing ++ ">>"]))

mutual
/-- The text `indentedString(level)` places after the key of an entry holding
`v`; `none` when a repeat count is negative. -/
def valueIndentedString (M : Methods) : Int → Object → Option String
  | level, Object.PDFDict sub =>
    joinIndentedString (level + 1) (sortStrings (mapKeys sub))
      (entriesIndentedString M (level + 1) sub)
  | level, Object.Array a => some (M.arrayIndentedString a (level + 1))
  | _, v => some (M.valueString v)
/-- The entries of a map, each rendered by `valueIndentedString`. -/
def entriesIndentedString (M : Methods) :
    Int → List (String × Object) → List (String × Option String)
  | _, [] => []
  | level, (k, v) :: rest =>
    (k, valueIndentedString M level v) :: entriesIndentedString M level rest
end

/-- The debug form of the dictionary at the given nesting level; `none` when
`strings.Repeat` panics on a negative count. -/
def PDFDict.indentedString (M : Methods) (d : PDFDict) (level : Int) : Option String :=
  joinIndentedString level (sortStrings (mapKeys d.Dict))
    (entriesIndentedString M level d.Dict)


/-! ## Definitions used in the statements -/

/-- The results of the typed accessors for one key. -/
structure TypedEntries where
  boolean : Option Bool
  string : Option String
  name : Option String
  int : Option Int
  int64 : Option Int
  indirectRef : Option IndirectRef
  pdfDict : Option PDFDict
  streamDict : Option StreamDict
  array : Option (List Object)
  stringLiteral : Option String
  hexLiteral : Option String

/-- Every typed accessor reports absence. -/
def TypedEntries.absent : TypedEntries :=
  ⟨none, none, none, none, none, none, none, none, none, none, none⟩

/-- What each typed accessor of dict.go returns for the key. -/
def PDFDict.typedEntries (d : PDFDict) (key : String) : TypedEntries :=
  { boolean := d.BooleanEntry key
    string := d.StringEntry key
    name := d.NameEntry key
    int := d.IntEntry key
    int64 := d.Int64Entry key
    indirectRef := d.IndirectRefEntry key
    pdfDict := d.PDFDictEntry key
    streamDict := d.StreamDictEntry key
    array := d.ArrayEntry key
    stringLiteral := d.StringLiteralEntry key
    hexLiteral := d.HexLiteralEntry key }

/-- The specification's table of typed reads: the accessors of the variant of
the stored value return its payload, all others return none. -/
def specTypedEntries : Object → TypedEntries
  | Object.Boolean b => { TypedEntries.absent with boolean := some b }
  | Object.Name s => { TypedEntries.absent with name := some s }
  | Object.Integer i => { TypedEntries.absent with int := some i, int64 := some i }
  | Object.IndirectRef r => { TypedEntries.absent with indirectRef := some r }
  | Object.PDFDict es => { TypedEntries.absent with pdfDict := some ⟨es⟩ }
  | Object.StreamDict es st => { TypedEntries.absent with streamDict := some ⟨es, st⟩ }
  | Object.Array a => { TypedEntries.absent with array := some a }
  | Object.StringLiteral s =>
    { TypedEntries.absent with stringLiteral := some s, string := some s }
  | Object.HexLiteral s => { TypedEntries.absent with hexLiteral := some s }
  | Object.Float _ => TypedEntries.absent
  | Object.nil => TypedEntries.absent
  | Object.other _ => TypedEntries.absent

/-- The message of the error `Entry` returns for a missing required entry. -/
def missingEntryError (dictName key : String) : String :=
  "dict=" ++ dictName ++ " required entry=" ++ key ++ " missing"

/-- A page dictionary with entries of several variants. -/
def samplePage : PDFDict :=
  ⟨[("Type", Object.Name "Page"), ("Rotate", Object.Integer 90),
    ("Parent", Object.IndirectRef ⟨3, 0⟩), ("Resources", Object.PDFDict []),
    ("Hidden", Object.Boolean false)]⟩

/-- A dictionary holding a present null entry. -/
def sampleNull : PDFDict := ⟨[("K", Object.nil)]⟩

/-- A stream dictionary with a direct length. -/
def sampleLength42 : PDFDict := ⟨[("Length", Object.Integer 42)]⟩

/-- A stream dictionary whose length is an indirect reference to object 7. -/
def sampleLengthRef7 : PDFDict := ⟨[("Length", Object.IndirectRef ⟨7, 0⟩)]⟩
/-- String returns the debug form of the dictionary.  (Declared after the other
methods of the dictionary: inside its namespace the name hides the type of
strings.) -/
def PDFDict.String (M : Methods) (d : PDFDict) : Option String :=
  d.indentedString M 1

/-- A stand-in for the open methods, used where a statement is evaluated on a
dictionary. -/
def sampleMethods : Methods :=
  { floatString := fun bits => toString bits
    arrayPDFString := fun _ => some "[]"
    arrayIndentedString := fun _ _ => "[]"
    valueString := fun v =>
      match v with
      | Object.nil => "<nil>"
      | Object.Integer i => Integer.String i
      | Object.Name s => s
      | Object.Boolean b => Boolean.String b
      | _ => "?" }


mutual
/-- The value is of the closed variant set of the data model, and so are the
values of a dictionary nested in it; an array is one the canonical array
serializer returns for. -/
def closedObject (M : Methods) : Object → Bool
  | Object.Boolean _ => true
  | Object.Integer _ => true
  | Object.Float _ => true
  | Object.Name _ => true
  | Object.StringLiteral _ => true
  | Object.HexLiteral _ => true
  | Object.IndirectRef _ => true
  | Object.Array a => (M.arrayPDFString a).isSome
  | Object.PDFDict sub => closedEntries M sub
  | Object.nil => false
  | Object.StreamDict _ _ => false
  | Object.other _ => false
/-- Every value of the map is of the closed variant set. -/
def closedEntries (M : Methods) : List (String × Object) → Bool
  | [] => true
  | (_, v) :: rest => closedObject M v && closedEntries M rest
end

/-- The specification's rendering of a value after its key: one space before
an Integer, Float, Boolean or IndirectRef token, no space before a Name, a
nested dictionary, an array, a StringLiteral or a HexLiteral. -/
def specRendering (M : Methods) : Object → String
  | Object.Integer i => " " ++ toString i
  | Object.Float f => " " ++ M.floatString f
  | Object.Boolean b => " " ++ (if b then "true" else "false")
  | Object.IndirectRef r =>
    " " ++ (toString r.ObjectNumber ++ " " ++ toString r.GenerationNumber ++ " R")
  | Object.Name s => "/" ++ s
  | Object.PDFDict sub => ((PDFDict.mk sub).PDFString M).getD ""
  | Object.Array a => (M.arrayPDFString a).getD ""
  | Object.StringLiteral s => "(" ++ s ++ ")"
  | Object.HexLiteral s => "<" ++ s ++ ">"
  | _ => ""

/-- The dictionary with entries B = Integer 1 and A = Name X, built by two
calls of Insert. -/
def sampleBA : PDFDict :=
  ((NewPDFDict.Insert "B" (Object.Integer 1)).1.Insert "A" (Object.Name "X")).1

/-- The same entries inserted in the other order. -/
def sampleAB : PDFDict :=
  ((NewPDFDict.Insert "A" (Object.Name "X")).1.Insert "B" (Object.Integer 1)).1

/-! ## Definitions for the injectivity of the canonical form -/

/-- White-space characters of the PDF syntax. -/
def isWhiteSpace (c : Char) : Bool :=
  c == Char.ofNat 0 || c == '\t' || c == '\n' || c == Char.ofNat 12 || c == '\r' || c == ' '

/-- Delimiter characters of the PDF syntax. -/
def isDelimiter (c : Char) : Bool :=
  c == '(' || c == ')' || c == '<' || c == '>' || c == '[' || c == ']' ||
  c == '{' || c == '}' || c == '/' || c == '%'

/-- A regular character: neither white space nor a delimiter. -/
def isRegularChar (c : Char) : Bool := !(isWhiteSpace c || isDelimiter c)

/-- The characters of a decimal numeral: the digits and the minus sign. -/
def isNumeralChar (c : Char) : Bool := c.isDigit || c == '-'

/-- The number a list of digits denotes, continuing from `acc`. -/
def decimalValue (acc : Nat) (cs : List Char) : Nat :=
  cs.foldl (fun a c => 10 * a + (c.toNat - 48)) acc

/-- The string is made of regular characters only. -/
def regularName (s : String) : Bool := s.data.all isRegularChar

/-- The body of a PDF literal string is well formed: read from nesting depth
depth, with esc telling whether the character before was an escaping
backslash, every closing parenthesis that is not escaped closes an opening one,
every opening one is closed, and the body does not end in an escaping
backslash. -/
def literalBody : Nat → Bool → List Char → Bool
  | depth, esc, [] => depth == 0 && !esc
  | depth, true, _ :: cs => literalBody depth false cs
  | depth, false, c :: cs =>
    if c = '\\' then literalBody depth true cs
    else if c = '(' then literalBody (depth + 1) false cs
    else if c = ')' then
      match depth with
      | 0 => false
      | n + 1 => literalBody n false cs
    else literalBody depth false cs

/-- The body of a hexadecimal string can be told from the text around it: it
holds no closing angle bracket and does not start with an opening one. -/
def hexBody (cs : List Char) : Bool :=
  cs.all (fun c => c != '>') && !(cs.head? == some '<')

mutual
/-- The value can be read back from its canonical form: it is an Integer, a
Float, a Boolean, an IndirectRef, a Name of regular characters, a StringLiteral
with a well-formed body, a HexLiteral whose body has no closing
angle bracket and does not start with an opening one, an array of the
class A, or a dictionary whose keys are made of regular characters and whose
values are of this kind. -/
def readableObject (A : List Object → Bool) : Object → Bool
  | Object.Boolean _ => true
  | Object.Integer _ => true
  | Object.Float _ => true
  | Object.IndirectRef _ => true
  | Object.Name s => regularName s
  | Object.StringLiteral s => literalBody 0 false s.data
  | Object.HexLiteral s => hexBody s.data
  | Object.Array a => A a
  | Object.PDFDict sub => readableEntries A sub
  | Object.nil => false
  | Object.StreamDict _ _ => false
  | Object.other _ => false
/-- Every key of the map is made of regular characters and every value can be
read back from its canonical form. -/
def readableEntries (A : List Object → Bool) : List (String × Object) → Bool
  | [] => true
  | (k, v) :: rest => regularName k && readableObject A v && readableEntries A rest
end

/-- Two values are the same up to the order in which the entries of nested
dictionaries are stored: equal values, or dictionaries with the same keys
holding values that are the same in this sense. -/
inductive SameValue : Object → Object → Prop
  | refl (v : Object) : SameValue v v
  | dict (m1 m2 : List (String × Object)) :
      (∀ k, (mapIndex m1 k).2 = (mapIndex m2 k).2) →
      (∀ k, SameValue (mapIndex m1 k).1 (mapIndex m2 k).1) →
      SameValue (Object.PDFDict m1) (Object.PDFDict m2)

/-- The text that follows a rendered value inside a dictionary starts with the
slash of the next key or with the closing bracket. -/
def startsEntryOrEnd : List Char → Bool
  | [] => false
  | x :: _ => x == '/' || x == '>'

/-- The characters of the entries of a dictionary with the given sorted keys
and values. -/
def bodyChars (M : Methods) (keys : List String) (f : String → Object) : List Char :=
  (String.join (keys.map (fun k => "/" ++ k ++ specRendering M (f k)))).data

/-- What reading the canonical form back needs from the methods declared
outside dict.go.  A float token is made of regular characters, is neither an
integer nor a boolean token, and determines the float.  On the arrays of the
class A the array serializer returns a text that starts with the opening
square bracket and that determines the array and the text after it. -/
structure ReadBack (M : Methods) (A : List Object → Bool) : Prop where
  float_regular : ∀ f, ∀ c ∈ (M.floatString f).data, isRegularChar c = true
  float_injective : ∀ f g, M.floatString f = M.floatString g → f = g
  float_not_integer : ∀ f i, M.floatString f ≠ Integer.String i
  float_not_boolean : ∀ f b, M.floatString f ≠ Boolean.String b
  array_bracket : ∀ a, A a = true →
    ∃ tl, M.arrayPDFString a = some (String.mk ('[' :: tl))
  array_read : ∀ a1 a2 s1 s2 c1 c2, A a1 = true → A a2 = true →
    M.arrayPDFString a1 = some s1 → M.arrayPDFString a2 = some s2 →
    startsEntryOrEnd c1 = true → startsEntryOrEnd c2 = true →
    s1.data ++ c1 = s2.data ++ c2 → a1 = a2 ∧ c1 = c2

/-- The rendering of the value determines the value and the text after it. -/
def ValueInjective (M : Methods) (A : List Object → Bool) (v1 : Object) : Prop :=
  ∀ v2, readableObject A v2 = true → ∀ c1 c2, startsEntryOrEnd c1 = true →
    startsEntryOrEnd c2 = true →
    (specRendering M v1).data ++ c1 = (specRendering M v2).data ++ c2 →
    SameValue v1 v2 ∧ c1 = c2

/-- A dictionary with a value of every variant that can be read back, one of
them a nested dictionary. -/
def sampleNested : PDFDict :=
  ⟨[("Kids", Object.PDFDict [("B", Object.Integer 1), ("A", Object.Name "X")]),
    ("Flag", Object.Boolean true), ("Ref", Object.IndirectRef ⟨7, 0⟩),
    ("Count", Object.Integer (-12)), ("S", Object.StringLiteral "hi"),
    ("H", Object.HexLiteral "0A")]⟩

/-- The entries of `sampleNested` stored in another order, at both levels. -/
def sampleNestedReordered : PDFDict :=
  ⟨[("H", Object.HexLiteral "0A"), ("Count", Object.Integer (-12)),
    ("Kids", Object.PDFDict [("A", Object.Name "X"), ("B", Object.Integer 1)]),
    ("S", Object.StringLiteral "hi"), ("Ref", Object.IndirectRef ⟨7, 0⟩),
    ("Flag", Object.Boolean true)]⟩
/-! ## Definitions for the statements on Delete, the shortcuts and the count -/

/-- An object stream dictionary. -/
def sampleObjStm : PDFDict :=
  ⟨[("Type", Object.Name "ObjStm"), ("N", Object.Integer 3), ("First", Object.Integer 18)]⟩

/-- A dictionary whose Type entry is a string literal, not a name. -/
def sampleTypeString : PDFDict := ⟨[("Type", Object.StringLiteral "ObjStm")]⟩

/-- A linearization parameter dictionary. -/
def sampleLinearized : PDFDict :=
  ⟨[("Linearized", Object.Integer 1), ("L", Object.Integer 4096)]⟩

/-! ## Definitions for the statements on the fatal branch and the debug form -/

/-- The value is not null and its kind is outside the closed set of the data
model: it is none of Dict, Array, Name, Integer, Float, Boolean, StringLiteral,
HexLiteral, IndirectRef. -/
def unknownKind : Object → Bool
  | Object.StreamDict _ _ => true
  | Object.other _ => true
  | _ => false

/-- The value is an array on which the canonical array serializer ends the
program. -/
def arrayFails (M : Methods) : Object → Bool
  | Object.Array a => (M.arrayPDFString a).isNone
  | _ => false

/-- Some entry of the map, or of a dictionary nested in it, holds a value with
the property. -/
inductive HoldsNested (P : Object → Prop) : List (String × Object) → Prop
  | here (m : List (String × Object)) (k : String) (v : Object) :
      m.lookup k = some v → P v → HoldsNested P m
  | nested (m : List (String × Object)) (k : String) (sub : List (String × Object)) :
      m.lookup k = some (Object.PDFDict sub) → HoldsNested P sub → HoldsNested P m

/-- A dictionary holding a value of unknown kind two levels down. -/
def sampleDeepUnknown : PDFDict :=
  ⟨[("A", Object.Integer 1),
    ("Kids", Object.PDFDict [("Inner", Object.PDFDict [("X", Object.other 7)])])]⟩

/-- A dictionary whose values are null or of the closed set at every level. -/
def sampleDeepClosed : PDFDict :=
  ⟨[("A", Object.nil),
    ("Kids", Object.PDFDict [("Inner", Object.PDFDict [("X", Object.Float 0)]),
      ("N", Object.nil)])]⟩

mutual
/-- The value has the property, or it is a dictionary one of whose entries, at
any level, has a value with the property. -/
def anyValue (p : Object → Bool) : Object → Bool
  | Object.PDFDict sub => p (Object.PDFDict sub) || anyEntries p sub
  | Object.nil => p Object.nil
  | Object.Boolean b => p (Object.Boolean b)
  | Object.Integer i => p (Object.Integer i)
  | Object.Float f => p (Object.Float f)
  | Object.Name s => p (Object.Name s)
  | Object.StringLiteral s => p (Object.StringLiteral s)
  | Object.HexLiteral s => p (Object.HexLiteral s)
  | Object.IndirectRef r => p (Object.IndirectRef r)
  | Object.Array a => p (Object.Array a)
  | Object.StreamDict es st => p (Object.StreamDict es st)
  | Object.other t => p (Object.other t)
/-- Some entry of the list, at any level, has a value with the property. -/
def anyEntries (p : Object → Bool) : List (String × Object) → Bool
  | [] => false
  | (_, v) :: rest => anyValue p v || anyEntries p rest
end

/-- A run of tab characters. -/
def tabs (n : Nat) : String := String.mk (List.replicate n '\t')

/-- The text of a value inside an entry line of the debug form written at the
given level: a nested dictionary is written one level deeper, an array by the
array's debug serializer, any other value in its default textual form. -/
def debugValue (M : Methods) (level : Int) : Object → String
  | Object.PDFDict sub => ((PDFDict.mk sub).indentedString M (level + 1)).getD ""
  | Object.Array a => M.arrayIndentedString a (level + 1)
  | v => M.valueString v

/-- No value of the map is a dictionary or an array. -/
def flatEntries (m : List (String × Object)) : Bool :=
  m.all (fun e =>
    match e.2 with
    | Object.PDFDict _ => false
    | Object.Array _ => false
    | _ => true)

/-- A dictionary nested three levels deep, with a null value and a value of
unknown kind. -/
def sampleDebug : PDFDict :=
  ⟨[("Z", Object.nil), ("A", Object.PDFDict [("B", Object.PDFDict [("C", Object.other 1)])]),
    ("N", Object.Integer 5)]⟩

/-! ## The map primitives -/

theorem filter_ne_cons_eq (m : List (String × Object)) (k : String) (v0 : Object) :
    ((k, v0) :: m).filter (fun e => e.1 != k) = m.filter (fun e => e.1 != k) := by
  simp [List.filter_cons]

theorem filter_ne_cons_ne (m : List (String × Object)) (k k0 : String) (v0 : Object)
    (h : k0 ≠ k) :
    ((k0, v0) :: m).filter (fun e => e.1 != k) = (k0, v0) :: m.filter (fun e => e.1 != k) := by
  simp [List.filter_cons, h]

theorem lookup_filter_self (m : List (String × Object)) (k : String) :
    (m.filter (fun e => e.1 != k)).lookup k = none := by
  induction m with
  | nil => rfl
  | cons e m ih =>
    obtain ⟨k0, v0⟩ := e
    by_cases h : k0 = k
    · subst h
      rw [filter_ne_cons_eq]
      exact ih
    · have h2 : (k == k0) = false := by simpa using fun h3 => h h3.symm
      rw [filter_ne_cons_ne m k k0 v0 h, List.lookup_cons, h2]
      exact ih

theorem lookup_filter_ne (m : List (String × Object)) (k k2 : String) (hne : k2 ≠ k) :
    (m.filter (fun e => e.1 != k)).lookup k2 = m.lookup k2 := by
  induction m with
  | nil => rfl
  | cons e m ih =>
    obtain ⟨k0, v0⟩ := e
    by_cases h : k0 = k
    · subst h
      have h2 : (k2 == k0) = false := by simpa using hne
      rw [filter_ne_cons_eq, List.lookup_cons, h2]
      exact ih
    · rw [filter_ne_cons_ne m k k0 v0 h, List.lookup_cons, List.lookup_cons, ih]

theorem mapIndex_mapAssign_self (m : List (String × Object)) (k : String) (v : Object) :
    mapIndex (mapAssign m k v) k = (v, true) := by
  simp [mapIndex, mapAssign, List.lookup]

theorem mapIndex_mapAssign_ne (m : List (String × Object)) (k k2 : String) (v : Object)
    (hne : k2 ≠ k) : mapIndex (mapAssign m k v) k2 = mapIndex m k2 := by
  have h2 : (k2 == k) = false := by simpa using hne
  simp [mapIndex, mapAssign, List.lookup, h2, lookup_filter_ne m k k2 hne]

theorem mapIndex_mapDelete_self (m : List (String × Object)) (k : String) :
    mapIndex (mapDelete m k) k = (Object.nil, false) := by
  simp [mapIndex, mapDelete, lookup_filter_self]

theorem mapIndex_mapDelete_ne (m : List (String × Object)) (k k2 : String)
    (hne : k2 ≠ k) : mapIndex (mapDelete m k) k2 = mapIndex m k2 := by
  simp [mapIndex, mapDelete, lookup_filter_ne m k k2 hne]

theorem mem_mapKeys (m : List (String × Object)) (k : String) :
    k ∈ mapKeys m ↔ (m.lookup k).isSome = true := by
  induction m with
  | nil => simp [mapKeys]
  | cons e m ih =>
    obtain ⟨k0, v0⟩ := e
    by_cases h : k = k0
    · simp [mapKeys, List.lookup, h]
    · have h2 : (k == k0) = false := by simpa using h
      simp [mapKeys, List.lookup, h, h2, ih]

theorem nodup_mapKeys (m : List (String × Object)) : (mapKeys m).Nodup := by
  induction m with
  | nil => simp [mapKeys]
  | cons e m ih =>
    obtain ⟨k0, v0⟩ := e
    simp only [mapKeys, List.nodup_cons]
    exact ⟨by simp, ih.filter _⟩

theorem mem_mapKeys_iff_found (m : List (String × Object)) (k : String) :
    k ∈ mapKeys m ↔ (mapIndex m k).2 = true := by
  rw [mem_mapKeys]
  unfold mapIndex
  cases m.lookup k <;> simp

theorem mapIndex_of_not_mem (m : List (String × Object)) (k : String)
    (h : k ∉ mapKeys m) : mapIndex m k = (Object.nil, false) := by
  rw [mem_mapKeys] at h
  unfold mapIndex
  cases hl : m.lookup k with
  | none => rfl
  | some v => simp [hl] at h

/-! ## Insert, Update, Find -/

/-- C1: for every dictionary, every key that is not present in it and every
value, Insert returns true and afterwards Find of the key returns the value
together with true. -/
theorem Insert_absent (d : PDFDict) (k : String) (v : Object) (h : k ∉ mapKeys d.Dict) :
    (d.Insert k v).2 = true ∧ (d.Insert k v).1.Find k = (v, true) := by
  have hf : (d.Find k).2 = false := by
    simp [PDFDict.Find, mapIndex_of_not_mem d.Dict k h]
  have hi : d.Insert k v = (⟨mapAssign d.Dict k v⟩, true) := by
    simp [PDFDict.Insert, hf]
  rw [hi]
  exact ⟨rfl, mapIndex_mapAssign_self d.Dict k v⟩

theorem Insert_absent_witness :
    "MediaBox" ∉ mapKeys samplePage.Dict ∧
    ((samplePage.Insert "MediaBox" (Object.Array [])).2 = true ∧
      (samplePage.Insert "MediaBox" (Object.Array [])).1.Find "MediaBox"
        = (Object.Array [], true)) :=
  ⟨by decide, Insert_absent samplePage "MediaBox" (Object.Array []) (by decide)⟩

/-- C2: for every dictionary and key whose stored value is of some variant, the
typed accessors of that variant return the payload of the value and the typed
accessors of every other variant return none; in particular PDFDictEntry and
ArrayEntry return none for a value stored as an IndirectRef. -/
theorem typedEntries_of_found (d : PDFDict) (k : String) (v : Object)
    (h : d.Find k = (v, true)) :
    d.typedEntries k = specTypedEntries v ∧
    (∀ r, v = Object.IndirectRef r → d.PDFDictEntry k = none ∧ d.ArrayEntry k = none) := by
  constructor
  · cases v <;>
      simp [PDFDict.typedEntries, specTypedEntries, TypedEntries.absent, PDFDict.BooleanEntry,
        PDFDict.StringEntry, PDFDict.NameEntry, PDFDict.IntEntry, PDFDict.Int64Entry,
        PDFDict.IndirectRefEntry, PDFDict.PDFDictEntry, PDFDict.StreamDictEntry,
        PDFDict.ArrayEntry, PDFDict.StringLiteralEntry, PDFDict.HexLiteralEntry, h]
  · intro r hr
    subst hr
    simp [PDFDict.PDFDictEntry, PDFDict.ArrayEntry, h]

theorem typedEntries_of_found_witness :
    samplePage.Find "Parent" = (Object.IndirectRef ⟨3, 0⟩, true) ∧
    (samplePage.typedEntries "Parent" = specTypedEntries (Object.IndirectRef ⟨3, 0⟩) ∧
      (∀ r, Object.IndirectRef ⟨3, 0⟩ = Object.IndirectRef r →
        samplePage.PDFDictEntry "Parent" = none ∧ samplePage.ArrayEntry "Parent" = none)) :=
  ⟨rfl, typedEntries_of_found samplePage "Parent" (Object.IndirectRef ⟨3, 0⟩) rfl⟩

/-- C3: for every dictionary, every key already present with a value and every
new value, Insert returns false and leaves the dictionary unchanged: Find of
the key still returns the old value, every other entry and the entry count are
as before. -/
theorem Insert_present (d : PDFDict) (k : String) (v1 v2 : Object)
    (h : d.Find k = (v1, true)) :
    (d.Insert k v2).2 = false ∧ (d.Insert k v2).1 = d ∧
    (d.Insert k v2).1.Find k = (v1, true) ∧
    (∀ k2, (d.Insert k v2).1.Find k2 = d.Find k2) ∧
    (d.Insert k v2).1.Len = d.Len := by
  have hi : d.Insert k v2 = (d, false) := by simp [PDFDict.Insert, h]
  simp [hi, h]

theorem Insert_present_witness :
    samplePage.Find "Rotate" = (Object.Integer 90, true) ∧
    ((samplePage.Insert "Rotate" (Object.Integer 180)).2 = false ∧
      (samplePage.Insert "Rotate" (Object.Integer 180)).1 = samplePage ∧
      (samplePage.Insert "Rotate" (Object.Integer 180)).1.Find "Rotate"
        = (Object.Integer 90, true) ∧
      (∀ k2, (samplePage.Insert "Rotate" (Object.Integer 180)).1.Find k2
        = samplePage.Find k2) ∧
      (samplePage.Insert "Rotate" (Object.Integer 180)).1.Len = samplePage.Len) :=
  ⟨rfl, Insert_present samplePage "Rotate" (Object.Integer 90) (Object.Integer 180) rfl⟩

/-- C4: Update is an unconditional, idempotent overwrite with a nil no-op: for
every dictionary, key and non-nil value, Find of the key after Update returns
the value and true whatever the key held before, and a second Update with the
same arguments yields the same dictionary as the first; Update with nil leaves
the dictionary unchanged (same result of Find at the key, same entry count). -/
theorem Update_overwrite (d : PDFDict) (k : String) (v2 : Object) (h : v2 ≠ Object.nil) :
    (d.Update k v2).Find k = (v2, true) ∧
    (d.Update k v2).Update k v2 = d.Update k v2 ∧
    (d.Update k Object.nil = d ∧ (d.Update k Object.nil).Find k = d.Find k ∧
      (d.Update k Object.nil).Len = d.Len) := by
  have hu : ∀ e : PDFDict, e.Update k v2 = ⟨mapAssign e.Dict k v2⟩ := by
    intro e
    cases v2 <;> first | exact absurd rfl h | rfl
  refine ⟨?_, ?_, ?_⟩
  · rw [hu]
    exact mapIndex_mapAssign_self d.Dict k v2
  · rw [hu d, hu]
    simp [mapAssign, filter_ne_cons_eq]
  · simp [PDFDict.Update]

theorem Update_overwrite_witness :
    Object.Integer 180 ≠ Object.nil ∧
    ((samplePage.Update "Rotate" (Object.Integer 180)).Find "Rotate"
        = (Object.Integer 180, true) ∧
      (samplePage.Update "Rotate" (Object.Integer 180)).Update "Rotate" (Object.Integer 180)
        = samplePage.Update "Rotate" (Object.Integer 180) ∧
      (samplePage.Update "Rotate" Object.nil = samplePage ∧
        (samplePage.Update "Rotate" Object.nil).Find "Rotate" = samplePage.Find "Rotate" ∧
        (samplePage.Update "Rotate" Object.nil).Len = samplePage.Len)) :=
  ⟨by simp, Update_overwrite samplePage "Rotate" (Object.Integer 180) (by simp)⟩

/-- C5: for every dictionary and every key not in it, Find reports found=false
(with the nil value) and every typed accessor returns none. -/
theorem absent_key (d : PDFDict) (k : String) (h : k ∉ mapKeys d.Dict) :
    d.Find k = (Object.nil, false) ∧ d.typedEntries k = TypedEntries.absent := by
  have hf : d.Find k = (Object.nil, false) := mapIndex_of_not_mem d.Dict k h
  simp [PDFDict.typedEntries, TypedEntries.absent, PDFDict.BooleanEntry,
    PDFDict.StringEntry, PDFDict.NameEntry, PDFDict.IntEntry, PDFDict.Int64Entry,
    PDFDict.IndirectRefEntry, PDFDict.PDFDictEntry, PDFDict.StreamDictEntry,
    PDFDict.ArrayEntry, PDFDict.StringLiteralEntry, PDFDict.HexLiteralEntry, hf]

theorem absent_key_witness :
    "Contents" ∉ mapKeys samplePage.Dict ∧
    (samplePage.Find "Contents" = (Object.nil, false) ∧
      samplePage.typedEntries "Contents" = TypedEntries.absent) :=
  ⟨by decide, absent_key samplePage "Contents" (by decide)⟩

/-! ## Entry and Length -/

/-- C6, as stated, fails: it is not the case that for every dictionary, name,
key and flag, Entry returns an error if and only if the flag is set and the
key is missing.  On a dictionary holding a present null entry, Entry with the
flag set returns an error although the key is present. -/
theorem Entry_error_iff_missing_fails :
    ¬ ∀ (d : PDFDict) (n k : String) (required : Bool),
      ((d.Entry n k required).2 ≠ none ↔ (required = true ∧ k ∉ mapKeys d.Dict)) := by
  intro hall
  have h := (hall sampleNull "Catalog" "K" true).1 (by decide)
  exact h.2 (by decide)

/-- C6, amended: Entry returns an error if and only if the flag is set and the
key is missing or holds the null value, and the error names the dictionary and
the key; when the key is missing or null and the flag is not set it returns
nil and no error; when the key holds a non-null value it returns that value
unchanged with no error. -/
theorem Entry_spec (d : PDFDict) (n k : String) (required : Bool) :
    ((d.Entry n k required).2 ≠ none ↔
      (required = true ∧ (k ∉ mapKeys d.Dict ∨ (d.Find k).1 = Object.nil))) ∧
    ((k ∉ mapKeys d.Dict ∨ (d.Find k).1 = Object.nil) →
      d.Entry n k required
        = (Object.nil, if required then some (missingEntryError n k) else none)) ∧
    (∀ v, d.Find k = (v, true) → v ≠ Object.nil → d.Entry n k required = (v, none)) := by
  have hmem := mem_mapKeys_iff_found d.Dict k
  rcases hfd : d.Find k with ⟨v, found⟩
  have hfd2 : mapIndex d.Dict k = (v, found) := hfd
  rw [hfd2] at hmem
  cases found with
  | false =>
    have hE : d.Entry n k required
        = (Object.nil, if required then some (missingEntryError n k) else none) := by
      cases required <;> simp [PDFDict.Entry, hfd, missingEntryError]
    have hnot : k ∉ mapKeys d.Dict := by simp [hmem]
    refine ⟨?_, fun _ => hE, ?_⟩
    · rw [hE]
      cases required <;> simp [hnot]
    · intro v2 h2
      simp at h2
  | true =>
    have hin : k ∈ mapKeys d.Dict := by simp [hmem]
    by_cases hv : v = Object.nil
    · subst hv
      have hE : d.Entry n k required
          = (Object.nil, if required then some (missingEntryError n k) else none) := by
        cases required <;> simp [PDFDict.Entry, hfd, missingEntryError]
      refine ⟨?_, fun _ => hE, ?_⟩
      · rw [hE]
        cases required <;> simp
      · intro v2 h2 h3
        simp at h2
        exact absurd h2.symm h3
    · have hE : d.Entry n k required = (v, none) := by
        cases v <;> first | exact absurd rfl hv | simp [PDFDict.Entry, hfd]
      refine ⟨?_, ?_, ?_⟩
      · rw [hE]
        simp [hin, hv]
      · intro h
        rcases h with h | h
        · exact absurd hin h
        · exact absurd h hv
      · intro v2 h2 _
        simp at h2
        rw [hE, h2]

theorem Entry_spec_witness :
    samplePage.Entry "Page" "Contents" true
        = (Object.nil, some "dict=Page required entry=Contents missing") ∧
    sampleNull.Entry "Catalog" "K" true
        = (Object.nil, some "dict=Catalog required entry=K missing") ∧
    sampleNull.Entry "Catalog" "K" false = (Object.nil, none) ∧
    samplePage.Entry "Page" "Rotate" true = (Object.Integer 90, none) :=
  ⟨((Entry_spec samplePage "Page" "Contents" true).2.1 (Or.inl (by decide))).trans rfl,
   ((Entry_spec sampleNull "Catalog" "K" true).2.1 (Or.inr rfl)).trans rfl,
   ((Entry_spec sampleNull "Catalog" "K" false).2.1 (Or.inr rfl)).trans rfl,
   (Entry_spec samplePage "Page" "Rotate" true).2.2 (Object.Integer 90) rfl (by simp)⟩

/-- C7: Length returns the value and none when the entry "Length" holds an
Integer; none and the object number when it holds an IndirectRef, whatever the
generation number; none and none in every other case; never both components.
A direct length 42 gives (42, none), a reference to object 7 gives (none, 7). -/
theorem Length_spec (d : PDFDict) :
    (∀ v, d.Find "Length" = (Object.Integer v, true) → d.Length = (some v, none)) ∧
    (∀ n g, d.Find "Length" = (Object.IndirectRef ⟨n, g⟩, true) →
      d.Length = (none, some n)) ∧
    ((∀ v, d.Find "Length" ≠ (Object.Integer v, true)) →
      (∀ r, d.Find "Length" ≠ (Object.IndirectRef r, true)) → d.Length = (none, none)) ∧
    ¬ (d.Length.1 ≠ none ∧ d.Length.2 ≠ none) ∧
    sampleLength42.Length = (some 42, none) ∧
    sampleLengthRef7.Length = (none, some 7) := by
  refine ⟨?_, ?_, ?_, ?_, rfl, rfl⟩
  · intro v h
    simp [PDFDict.Length, PDFDict.Int64Entry, h]
  · intro n g h
    simp [PDFDict.Length, PDFDict.Int64Entry, PDFDict.IndirectRefEntry, h]
  · intro h1 h2
    rcases hfd : d.Find "Length" with ⟨v, found⟩
    cases found with
    | false => simp [PDFDict.Length, PDFDict.Int64Entry, PDFDict.IndirectRefEntry, hfd]
    | true =>
      cases v with
      | Integer i => exact absurd hfd (h1 i)
      | IndirectRef r => exact absurd hfd (h2 r)
      | _ => simp [PDFDict.Length, PDFDict.Int64Entry, PDFDict.IndirectRefEntry, hfd]
  · rcases hfd : d.Find "Length" with ⟨v, found⟩
    cases found with
    | false => simp [PDFDict.Length, PDFDict.Int64Entry, PDFDict.IndirectRefEntry, hfd]
    | true =>
      cases v <;> simp [PDFDict.Length, PDFDict.Int64Entry, PDFDict.IndirectRefEntry, hfd]

theorem Length_spec_witness :
    sampleLength42.Length = (some 42, none) ∧
    sampleLengthRef7.Length = (none, some 7) ∧
    samplePage.Length = (none, none) :=
  ⟨(Length_spec sampleLength42).1 42 rfl, (Length_spec sampleLengthRef7).2.1 7 0 rfl,
   (Length_spec samplePage).2.2.1
     (fun _ h => absurd (show (samplePage.Find "Length").2 = true from congrArg Prod.snd h)
       (by decide))
     (fun _ h => absurd (show (samplePage.Find "Length").2 = true from congrArg Prod.snd h)
       (by decide))⟩

/-! ## The order of strings -/

theorem leChars_total (a b : List Char) : leChars a b = true ∨ leChars b a = true := by
  induction a generalizing b with
  | nil => simp [leChars]
  | cons x xs ih =>
    cases b with
    | nil => simp [leChars]
    | cons y ys =>
      simp only [leChars]
      rcases Nat.lt_trichotomy x.toNat y.toNat with h | h | h
      · simp [h]
      · simp [h, ih ys]
      · simp [h, Nat.lt_asymm h]

theorem leChars_trans (a b c : List Char) (h1 : leChars a b = true)
    (h2 : leChars b c = true) : leChars a c = true := by
  induction a generalizing b c with
  | nil => simp [leChars]
  | cons x xs ih =>
    cases b with
    | nil => simp [leChars] at h1
    | cons y ys =>
      cases c with
      | nil => simp [leChars] at h2
      | cons z zs =>
        simp only [leChars] at h1 h2 ⊢
        by_cases hxy : x.toNat < y.toNat
        · by_cases hyz : y.toNat < z.toNat
          · simp [Nat.lt_trans hxy hyz]
          · by_cases hzy : z.toNat < y.toNat
            · simp [hyz, hzy] at h2
            · have : x.toNat < z.toNat := by omega
              simp [this]
        · by_cases hyx : y.toNat < x.toNat
          · simp [hxy, hyx] at h1
          · simp only [hxy, hyx, if_false] at h1
            by_cases hyz : y.toNat < z.toNat
            · have : x.toNat < z.toNat := by omega
              simp [this]
            · by_cases hzy : z.toNat < y.toNat
              · simp [hyz, hzy] at h2
              · simp only [hyz, hzy, if_false] at h2
                have e1 : ¬ x.toNat < z.toNat := by omega
                have e2 : ¬ z.toNat < x.toNat := by omega
                simp only [e1, e2, if_false]
                exact ih ys zs h1 h2

theorem leChars_antisymm (a b : List Char) (h1 : leChars a b = true)
    (h2 : leChars b a = true) : a = b := by
  induction a generalizing b with
  | nil =>
    cases b with
    | nil => rfl
    | cons y ys => simp [leChars] at h2
  | cons x xs ih =>
    cases b with
    | nil => simp [leChars] at h1
    | cons y ys =>
      simp only [leChars] at h1 h2
      by_cases hxy : x.toNat < y.toNat
      · simp [hxy, Nat.lt_asymm hxy] at h2
      · by_cases hyx : y.toNat < x.toNat
        · simp [hxy, hyx] at h1
        · simp only [hxy, hyx, if_false] at h1 h2
          have hn : x.toNat = y.toNat := by omega
          have hc : x = y := by
            apply Char.ext
            apply UInt32.ext
            exact hn
          rw [hc, ih ys h1 h2]

instance strLE.isTotal : IsTotal String strLE :=
  ⟨fun a b => leChars_total a.data b.data⟩

instance strLE.isTrans : IsTrans String strLE :=
  ⟨fun a b c h1 h2 => leChars_trans a.data b.data c.data h1 h2⟩

instance strLE.isAntisymm : IsAntisymm String strLE :=
  ⟨fun a b h1 h2 => String.ext (leChars_antisymm a.data b.data h1 h2)⟩

theorem sortStrings_sorted (keys : List String) : (sortStrings keys).Sorted strLE :=
  List.sorted_insertionSort strLE keys

theorem sortStrings_perm (keys : List String) : (sortStrings keys).Perm keys :=
  List.perm_insertionSort strLE keys

theorem mem_sortStrings (keys : List String) (k : String) :
    k ∈ sortStrings keys ↔ k ∈ keys :=
  (sortStrings_perm keys).mem_iff

theorem sortStrings_eq_of_perm (l1 l2 : List String) (h : l1.Perm l2) :
    sortStrings l1 = sortStrings l2 :=
  List.eq_of_perm_of_sorted
    (((sortStrings_perm l1).trans h).trans (sortStrings_perm l2).symm)
    (sortStrings_sorted l1) (sortStrings_sorted l2)

theorem sortStrings_strict (keys : List String) (h : keys.Nodup) :
    (sortStrings keys).Pairwise strLT := by
  have hs : (sortStrings keys).Pairwise strLE := sortStrings_sorted keys
  have hn : (sortStrings keys).Pairwise (fun a b => a ≠ b) :=
    (sortStrings_perm keys).nodup_iff.mpr h
  exact (hs.and hn).imp (fun h => h)

/-! ## The serializers as loops over the sorted keys -/

theorem lookup_eq_of_mapIndex_eq (m1 m2 : List (String × Object)) (k : String)
    (h : mapIndex m1 k = mapIndex m2 k) : m1.lookup k = m2.lookup k := by
  unfold mapIndex at h
  cases h1 : m1.lookup k <;> cases h2 : m2.lookup k <;> simp [h1, h2] at h ⊢
  exact h

theorem mapKeys_perm_of_mapIndex_eq (m1 m2 : List (String × Object))
    (h : ∀ k, mapIndex m1 k = mapIndex m2 k) : (mapKeys m1).Perm (mapKeys m2) := by
  rw [List.perm_ext_iff_of_nodup (nodup_mapKeys m1) (nodup_mapKeys m2)]
  intro k
  rw [mem_mapKeys_iff_found, mem_mapKeys_iff_found, h k]

theorem tableGet_entriesPDFString (M : Methods) (m : List (String × Object)) (k : String) :
    tableGet (entriesPDFString M m) k =
      match m.lookup k with
      | some v => entryPDFString M k v
      | none => none := by
  induction m with
  | nil => simp [entriesPDFString, tableGet]
  | cons e m ih =>
    obtain ⟨k0, v0⟩ := e
    by_cases h : k = k0
    · subst h
      simp [entriesPDFString, tableGet, List.lookup]
    · have h2 : (k == k0) = false := by simpa using h
      simp only [entriesPDFString, tableGet, List.lookup, h2] at ih ⊢
      exact ih

theorem tableGet_entriesIndentedString (M : Methods) (level : Int)
    (m : List (String × Object)) (k : String) :
    tableGet (entriesIndentedString M level m) k =
      match m.lookup k with
      | some v => valueIndentedString M level v
      | none => none := by
  induction m with
  | nil => simp [entriesIndentedString, tableGet]
  | cons e m ih =>
    obtain ⟨k0, v0⟩ := e
    by_cases h : k = k0
    · subst h
      simp [entriesIndentedString, tableGet, List.lookup]
    · have h2 : (k == k0) = false := by simpa using h
      simp only [entriesIndentedString, tableGet, List.lookup, h2] at ih ⊢
      exact ih

theorem mapM_congr_mem {α β : Type} (f g : α → Option β) (l : List α)
    (h : ∀ x ∈ l, f x = g x) : l.mapM f = l.mapM g := by
  induction l with
  | nil => rfl
  | cons x xs ih =>
    have hx : f x = g x := h x (List.mem_cons_self x xs)
    have hxs : xs.mapM f = xs.mapM g := ih (fun y hy => h y (List.mem_cons_of_mem x hy))
    rw [List.mapM_cons, List.mapM_cons, hx, hxs]

theorem tableGet_entriesPDFString_of_mem (M : Methods) (m : List (String × Object))
    (k : String) (h : k ∈ mapKeys m) :
    tableGet (entriesPDFString M m) k = entryPDFString M k (mapIndex m k).1 := by
  rw [tableGet_entriesPDFString]
  rw [mem_mapKeys] at h
  unfold mapIndex
  cases hl : m.lookup k with
  | none => simp [hl] at h
  | some v => rfl

/-- The loop of `PDFString` in the shape of the source: for every key in sorted
order the value is looked up in the map and rendered. -/
theorem PDFString_loop (M : Methods) (d : PDFDict) :
    d.PDFString M =
      ((sortStrings (mapKeys d.Dict)).mapM (fun k => entryPDFString M k (d.Find k).1)).map
        (fun logstr => String.join (["<<"] ++ logstr ++ [">>"])) := by
  unfold PDFDict.PDFString joinPDFString
  have hc : (sortStrings (mapKeys d.Dict)).mapM (tableGet (entriesPDFString M d.Dict))
      = (sortStrings (mapKeys d.Dict)).mapM (fun k => entryPDFString M k (d.Find k).1) := by
    apply mapM_congr_mem
    intro k hk
    rw [mem_sortStrings] at hk
    exact tableGet_entriesPDFString_of_mem M d.Dict k hk
  rw [hc]
  cases (sortStrings (mapKeys d.Dict)).mapM (fun k => entryPDFString M k (d.Find k).1) <;> rfl

theorem entryPDFString_PDFDict (M : Methods) (k : String) (sub : List (String × Object)) :
    entryPDFString M k (Object.PDFDict sub) =
      (PDFDict.PDFString M ⟨sub⟩).map (fun dictStr => "/" ++ k ++ dictStr) := by
  rw [entryPDFString]
  unfold PDFDict.PDFString
  cases joinPDFString (sortStrings (mapKeys sub)) (entriesPDFString M sub) <;> rfl

theorem tableGet_congr_of_mapIndex_eq (M : Methods) (m1 m2 : List (String × Object))
    (h : ∀ k, mapIndex m1 k = mapIndex m2 k) :
    tableGet (entriesPDFString M m1) = tableGet (entriesPDFString M m2) := by
  funext k
  rw [tableGet_entriesPDFString, tableGet_entriesPDFString,
    lookup_eq_of_mapIndex_eq m1 m2 k (h k)]

theorem tableGet_indented_congr_of_mapIndex_eq (M : Methods) (level : Int)
    (m1 m2 : List (String × Object)) (h : ∀ k, mapIndex m1 k = mapIndex m2 k) :
    tableGet (entriesIndentedString M level m1) = tableGet (entriesIndentedString M level m2) := by
  funext k
  rw [tableGet_entriesIndentedString, tableGet_entriesIndentedString,
    lookup_eq_of_mapIndex_eq m1 m2 k (h k)]

theorem joinPDFString_congr (keys : List String) (t1 t2 : List (String × Option String))
    (h : tableGet t1 = tableGet t2) : joinPDFString keys t1 = joinPDFString keys t2 := by
  unfold joinPDFString
  rw [h]

theorem joinIndentedString_congr (level : Int) (keys : List String)
    (t1 t2 : List (String × Option String)) (h : tableGet t1 = tableGet t2) :
    joinIndentedString level keys t1 = joinIndentedString level keys t2 := by
  unfold joinIndentedString
  rw [h]

theorem tableGet_entriesIndentedString_of_mem (M : Methods) (level : Int)
    (m : List (String × Object)) (k : String) (h : k ∈ mapKeys m) :
    tableGet (entriesIndentedString M level m) k
      = valueIndentedString M level (mapIndex m k).1 := by
  rw [tableGet_entriesIndentedString]
  rw [mem_mapKeys] at h
  unfold mapIndex
  cases hl : m.lookup k with
  | none => simp [hl] at h
  | some v => rfl

/-- The loop of `indentedString` in the shape of the source: for every key in
sorted order the value is looked up in the map and rendered at this level. -/
theorem indentedString_loop (M : Methods) (d : PDFDict) (level : Int) :
    d.indentedString M level =
      match stringsRepeat "\t" level with
      | none => none
      | some tabstr =>
        match (sortStrings (mapKeys d.Dict)).mapM (fun k =>
            match valueIndentedString M level (d.Find k).1 with
            | some s => some (tabstr ++ "<" ++ k ++ ", " ++ s ++ ">\n")
            | none => none) with
        | none => none
        | some lines =>
          match stringsRepeat "\t" (level - 1) with
          | none => none
          | some closing => some (String.join (["<<\n"] ++ lines ++ [closing ++ ">>"])) := by
  unfold PDFDict.indentedString joinIndentedString
  cases stringsRepeat "\t" level with
  | none => rfl
  | some tabstr =>
    have hc : (sortStrings (mapKeys d.Dict)).mapM (fun k =>
          match tableGet (entriesIndentedString M level d.Dict) k with
          | some s => some (tabstr ++ "<" ++ k ++ ", " ++ s ++ ">\n")
          | none => none)
        = (sortStrings (mapKeys d.Dict)).mapM (fun k =>
          match valueIndentedString M level (d.Find k).1 with
          | some s => some (tabstr ++ "<" ++ k ++ ", " ++ s ++ ">\n")
          | none => none) := by
      apply mapM_congr_mem
      intro k hk
      rw [mem_sortStrings] at hk
      simp only [tableGet_entriesIndentedString_of_mem M level d.Dict k hk, PDFDict.Find]
    simp only [hc]

theorem valueIndentedString_PDFDict (M : Methods) (level : Int)
    (sub : List (String × Object)) :
    valueIndentedString M level (Object.PDFDict sub)
      = PDFDict.indentedString M ⟨sub⟩ (level + 1) := by
  rw [valueIndentedString]
  rfl

/-! ## Determinism of the serializers -/

theorem mapKeys_perm_of_found_eq (m1 m2 : List (String × Object))
    (h : ∀ k, (mapIndex m1 k).2 = (mapIndex m2 k).2) : (mapKeys m1).Perm (mapKeys m2) := by
  rw [List.perm_ext_iff_of_nodup (nodup_mapKeys m1) (nodup_mapKeys m2)]
  intro k
  rw [mem_mapKeys_iff_found, mem_mapKeys_iff_found, h k]

theorem PDFString_congr_values (M : Methods) (m1 m2 : List (String × Object))
    (hf : ∀ k, (mapIndex m1 k).2 = (mapIndex m2 k).2)
    (hv : ∀ k, entryPDFString M k (mapIndex m1 k).1 = entryPDFString M k (mapIndex m2 k).1) :
    PDFDict.PDFString M ⟨m1⟩ = PDFDict.PDFString M ⟨m2⟩ := by
  rw [PDFString_loop, PDFString_loop]
  simp only [PDFDict.Find]
  rw [sortStrings_eq_of_perm _ _ (mapKeys_perm_of_found_eq m1 m2 hf)]
  have hfun : (fun k => entryPDFString M k (mapIndex m1 k).1)
      = (fun k => entryPDFString M k (mapIndex m2 k).1) := funext hv
  rw [hfun]

theorem indentedString_congr_values (M : Methods) (level : Int)
    (m1 m2 : List (String × Object))
    (hf : ∀ k, (mapIndex m1 k).2 = (mapIndex m2 k).2)
    (hv : ∀ k, valueIndentedString M level (mapIndex m1 k).1
      = valueIndentedString M level (mapIndex m2 k).1) :
    PDFDict.indentedString M ⟨m1⟩ level = PDFDict.indentedString M ⟨m2⟩ level := by
  rw [indentedString_loop, indentedString_loop]
  simp only [PDFDict.Find]
  rw [sortStrings_eq_of_perm _ _ (mapKeys_perm_of_found_eq m1 m2 hf)]
  simp only [hv]

/-- The serializers do not tell apart two values that are the same up to the
order in which nested dictionaries store their entries. -/
theorem serializers_respect_same (M : Methods) (v1 v2 : Object) (h : SameValue v1 v2) :
    (∀ k, entryPDFString M k v1 = entryPDFString M k v2) ∧
    (∀ level : Int, valueIndentedString M level v1 = valueIndentedString M level v2) := by
  induction h with
  | refl v => exact ⟨fun _ => rfl, fun _ => rfl⟩
  | dict m1 m2 hf _ ih =>
    constructor
    · intro k
      rw [entryPDFString_PDFDict, entryPDFString_PDFDict,
        PDFString_congr_values M m1 m2 hf (fun k2 => (ih k2).1 k2)]
    · intro level
      rw [valueIndentedString_PDFDict, valueIndentedString_PDFDict,
        indentedString_congr_values M (level + 1) m1 m2 hf (fun k2 => (ih k2).2 (level + 1))]

/-- Two maps hold the same values at every key as soon as they do at the keys
of either. -/
theorem same_of_keys (m1 m2 : List (String × Object))
    (h : ∀ k ∈ mapKeys m1 ++ mapKeys m2,
      (mapIndex m1 k).2 = (mapIndex m2 k).2 ∧
        SameValue (mapIndex m1 k).1 (mapIndex m2 k).1) :
    ∀ k, (mapIndex m1 k).2 = (mapIndex m2 k).2 ∧
      SameValue (mapIndex m1 k).1 (mapIndex m2 k).1 := by
  intro k
  by_cases hk : k ∈ mapKeys m1 ++ mapKeys m2
  · exact h k hk
  · rw [List.mem_append, not_or] at hk
    rw [mapIndex_of_not_mem m1 k hk.1, mapIndex_of_not_mem m2 k hk.2]
    exact ⟨rfl, SameValue.refl _⟩

/-- C8: PDFString emits the entries in strictly ascending key order: the keys it
walks are exactly the present keys, each once, strictly ascending, and the
output is the concatenation of the entries rendered in that order.  The output
depends only on the key to value mapping: two dictionaries that hold the same
keys with the same values, nested dictionaries being compared as mappings and
not by the order in which they store their entries, whatever sequence of
Insert, Update and Delete built them, have the same PDFString output and the
same String debug output; in particular so do two dictionaries on which Find
agrees at every key. -/
theorem PDFString_sorted_deterministic (M : Methods) :
    (∀ d : PDFDict,
      (sortStrings (mapKeys d.Dict)).Pairwise strLT ∧
      (∀ k, k ∈ sortStrings (mapKeys d.Dict) ↔ (d.Find k).2 = true) ∧
      d.PDFString M =
        ((sortStrings (mapKeys d.Dict)).mapM (fun k => entryPDFString M k (d.Find k).1)).map
          (fun logstr => String.join (["<<"] ++ logstr ++ [">>"]))) ∧
    (∀ d1 d2 : PDFDict,
      (∀ k, (d1.Find k).2 = (d2.Find k).2 ∧ SameValue (d1.Find k).1 (d2.Find k).1) →
      d1.PDFString M = d2.PDFString M ∧ d1.String M = d2.String M) ∧
    (∀ d1 d2 : PDFDict, (∀ k, d1.Find k = d2.Find k) →
      d1.PDFString M = d2.PDFString M ∧ d1.String M = d2.String M) := by
  have hsame : ∀ d1 d2 : PDFDict,
      (∀ k, (d1.Find k).2 = (d2.Find k).2 ∧ SameValue (d1.Find k).1 (d2.Find k).1) →
      d1.PDFString M = d2.PDFString M ∧ d1.String M = d2.String M := by
    intro d1 d2 h
    constructor
    · exact PDFString_congr_values M d1.Dict d2.Dict (fun k => (h k).1)
        (fun k => (serializers_respect_same M _ _ (h k).2).1 k)
    · exact indentedString_congr_values M 1 d1.Dict d2.Dict (fun k => (h k).1)
        (fun k => (serializers_respect_same M _ _ (h k).2).2 1)
  refine ⟨?_, hsame, ?_⟩
  · intro d
    refine ⟨sortStrings_strict _ (nodup_mapKeys d.Dict), ?_, PDFString_loop M d⟩
    intro k
    rw [mem_sortStrings]
    exact mem_mapKeys_iff_found d.Dict k
  · intro d1 d2 h
    apply hsame
    intro k
    rw [h k]
    exact ⟨rfl, SameValue.refl _⟩

theorem PDFString_sorted_deterministic_witness :
    (∀ k, (sampleNested.Find k).2 = (sampleNestedReordered.Find k).2 ∧
      SameValue (sampleNested.Find k).1 (sampleNestedReordered.Find k).1) ∧
    sampleNested.Find "Kids" ≠ sampleNestedReordered.Find "Kids" ∧
    (sampleNested.PDFString sampleMethods = sampleNestedReordered.PDFString sampleMethods ∧
      sampleNested.String sampleMethods = sampleNestedReordered.String sampleMethods) ∧
    sampleNested.PDFString sampleMethods
      = some "<</Count -12/Flag true/H<0A>/Kids<</A/X/B 1>>/Ref 7 0 R/S(hi)>>" ∧
    (sampleBA.PDFString sampleMethods = sampleAB.PDFString sampleMethods ∧
      sampleBA.String sampleMethods = sampleAB.String sampleMethods) :=
  have hkids : SameValue
      (Object.PDFDict [("B", Object.Integer 1), ("A", Object.Name "X")])
      (Object.PDFDict [("A", Object.Name "X"), ("B", Object.Integer 1)]) :=
    SameValue.dict _ _
      (fun k => (same_of_keys [("B", Object.Integer 1), ("A", Object.Name "X")]
        [("A", Object.Name "X"), ("B", Object.Integer 1)] (by
          intro k hk
          have hl : mapKeys [("B", Object.Integer 1), ("A", Object.Name "X")]
              ++ mapKeys [("A", Object.Name "X"), ("B", Object.Integer 1)]
              = ["B", "A", "A", "B"] := by decide
          rw [hl] at hk
          simp only [List.mem_cons, List.mem_singleton, List.not_mem_nil, or_false] at hk
          rcases hk with rfl | rfl | rfl | rfl <;> exact ⟨rfl, SameValue.refl _⟩) k).1)
      (fun k => (same_of_keys [("B", Object.Integer 1), ("A", Object.Name "X")]
        [("A", Object.Name "X"), ("B", Object.Integer 1)] (by
          intro k hk
          have hl : mapKeys [("B", Object.Integer 1), ("A", Object.Name "X")]
              ++ mapKeys [("A", Object.Name "X"), ("B", Object.Integer 1)]
              = ["B", "A", "A", "B"] := by decide
          rw [hl] at hk
          simp only [List.mem_cons, List.mem_singleton, List.not_mem_nil, or_false] at hk
          rcases hk with rfl | rfl | rfl | rfl <;> exact ⟨rfl, SameValue.refl _⟩) k).2)
  have hall : ∀ k, (sampleNested.Find k).2 = (sampleNestedReordered.Find k).2 ∧
      SameValue (sampleNested.Find k).1 (sampleNestedReordered.Find k).1 :=
    same_of_keys sampleNested.Dict sampleNestedReordered.Dict (by
      intro k hk
      have hl : mapKeys sampleNested.Dict ++ mapKeys sampleNestedReordered.Dict
          = ["Kids", "Flag", "Ref", "Count", "S", "H",
             "H", "Count", "Kids", "S", "Ref", "Flag"] := by decide
      rw [hl] at hk
      simp only [List.mem_cons, List.mem_singleton, List.not_mem_nil, or_false] at hk
      rcases hk with rfl | rfl | rfl | rfl | rfl | rfl | rfl | rfl | rfl | rfl | rfl | rfl
      all_goals first
        | exact ⟨rfl, SameValue.refl _⟩
        | exact ⟨rfl, hkids⟩)
  ⟨hall,
   fun h => by
    have h1 : sampleNested.Find "Kids"
        = (Object.PDFDict [("B", Object.Integer 1), ("A", Object.Name "X")], true) := rfl
    have h2 : sampleNestedReordered.Find "Kids"
        = (Object.PDFDict [("A", Object.Name "X"), ("B", Object.Integer 1)], true) := rfl
    rw [h1, h2] at h
    simp at h,
   (PDFString_sorted_deterministic sampleMethods).2.1 sampleNested sampleNestedReordered hall,
   by decide,
   (PDFString_sorted_deterministic sampleMethods).2.2 sampleBA sampleAB (by
    intro k
    by_cases hA : k = "A"
    · subst hA; rfl
    · by_cases hB : k = "B"
      · subst hB; rfl
      · have h1 : (k == "A") = false := by simpa using hA
        have h2 : (k == "B") = false := by simpa using hB
        simp [sampleBA, sampleAB, NewPDFDict, PDFDict.Insert, PDFDict.Find, mapIndex,
          mapAssign, List.lookup, h1, h2])⟩

/-! ## The layout of the canonical form -/

theorem mapM_eq_some_map {α β : Type} (f : α → Option β) (g : α → β) (l : List α)
    (h : ∀ x ∈ l, f x = some (g x)) : l.mapM f = some (l.map g) := by
  induction l with
  | nil => rfl
  | cons x xs ih =>
    have hx : f x = some (g x) := h x (List.mem_cons_self x xs)
    have hxs : xs.mapM f = some (xs.map g) :=
      ih (fun y hy => h y (List.mem_cons_of_mem x hy))
    rw [List.mapM_cons, hx, hxs]
    rfl

theorem join_brackets (opening closing : String) (parts : List String) :
    String.join ([opening] ++ parts ++ [closing])
      = opening ++ String.join parts ++ closing := by
  apply String.ext
  simp [String.data_join]

theorem closedObject_of_lookup (M : Methods) (m : List (String × Object))
    (h : closedEntries M m = true) (k : String) (v : Object) (hl : m.lookup k = some v) :
    closedObject M v = true := by
  induction m with
  | nil => simp at hl
  | cons e m ih =>
    obtain ⟨k0, v0⟩ := e
    simp only [closedEntries, Bool.and_eq_true] at h
    rw [List.lookup_cons] at hl
    cases hk : (k == k0) with
    | true =>
      rw [hk] at hl
      simp at hl
      rw [← hl]
      exact h.1
    | false =>
      rw [hk] at hl
      exact ih h.2 hl

theorem PDFString_eq_of_entries (M : Methods) (m : List (String × Object))
    (g : String → Object → String)
    (h : ∀ k v, m.lookup k = some v → entryPDFString M k v = some (g k v)) :
    PDFDict.PDFString M ⟨m⟩ =
      some ("<<" ++ String.join ((sortStrings (mapKeys m)).map
        (fun k => g k (mapIndex m k).1)) ++ ">>") := by
  rw [PDFString_loop]
  have hm : (sortStrings (mapKeys m)).mapM
      (fun k => entryPDFString M k ((PDFDict.mk m).Find k).1)
      = some ((sortStrings (mapKeys m)).map (fun k => g k (mapIndex m k).1)) := by
    apply mapM_eq_some_map
    intro k hk
    rw [mem_sortStrings, mem_mapKeys] at hk
    cases hl : m.lookup k with
    | none => simp [hl] at hk
    | some v =>
      have hfind : ((PDFDict.mk m).Find k).1 = v := by
        simp [PDFDict.Find, mapIndex, hl]
      have hidx : (mapIndex m k).1 = v := by simp [mapIndex, hl]
      rw [hfind, hidx]
      exact h k v hl
  rw [hm]
  simp only [Option.map_some']
  rw [join_brackets]

mutual
theorem entryPDFString_of_closed (M : Methods) (k : String) :
    ∀ v : Object, closedObject M v = true →
      entryPDFString M k v = some ("/" ++ k ++ specRendering M v)
  | Object.Boolean _, _ => by simp [entryPDFString, specRendering, Boolean.String, String.append_assoc]
  | Object.Integer _, _ => by simp [entryPDFString, specRendering, Integer.String, String.append_assoc]
  | Object.Float _, _ => by simp [entryPDFString, specRendering, String.append_assoc]
  | Object.Name _, _ => by simp [entryPDFString, specRendering, Name.PDFString]
  | Object.StringLiteral _, _ => by
    simp [entryPDFString, specRendering, StringLiteral.String]
  | Object.HexLiteral _, _ => by simp [entryPDFString, specRendering, HexLiteral.String]
  | Object.IndirectRef _, _ => by
    simp [entryPDFString, specRendering, IndirectRef.PDFString, Integer.String,
      String.append_assoc]
  | Object.Array a, h => by
    simp only [closedObject] at h
    cases ha : M.arrayPDFString a with
    | none => simp [ha] at h
    | some s => simp [entryPDFString, specRendering, ha]
  | Object.PDFDict sub, h => by
    simp only [closedObject] at h
    have hsub := PDFString_eq_of_entries M sub (fun k v => "/" ++ k ++ specRendering M v)
      (entriesPDFString_of_closed M sub h)
    rw [entryPDFString_PDFDict, specRendering, hsub]
    rfl
  | Object.nil, h => by simp [closedObject] at h
  | Object.StreamDict _ _, h => by simp [closedObject] at h
  | Object.other _, h => by simp [closedObject] at h
theorem entriesPDFString_of_closed (M : Methods) :
    ∀ m : List (String × Object), closedEntries M m = true →
      ∀ k v, m.lookup k = some v →
        entryPDFString M k v = some ("/" ++ k ++ specRendering M v)
  | [], _ => by intro k v hl; simp at hl
  | (k0, v0) :: rest, h => by
    intro k v hl
    simp only [closedEntries, Bool.and_eq_true] at h
    rw [List.lookup_cons] at hl
    cases hk : (k == k0) with
    | true =>
      rw [hk] at hl
      simp at hl
      rw [← hl]
      exact entryPDFString_of_closed M k v0 h.1
    | false =>
      rw [hk] at hl
      exact entriesPDFString_of_closed M rest h.2 k v hl
end

/-- C9: for every dictionary with values from the closed variant set, PDFString
is the opening bracket, then for the keys in ascending order and without any
separator the slash, the key and the rendering of the value, then the closing
bracket, where the rendering puts one space before an Integer, Float, Boolean
or IndirectRef token and none before a Name, nested dictionary, array,
StringLiteral or HexLiteral.  The dictionary with B = Integer 1 and A = Name X
serializes to exactly the text below, and the empty dictionary to the two
brackets. -/
theorem PDFString_layout (M : Methods) (d : PDFDict) (h : closedEntries M d.Dict = true) :
    d.PDFString M =
      some ("<<" ++ String.join ((sortStrings (mapKeys d.Dict)).map
        (fun k => "/" ++ k ++ specRendering M (d.Find k).1)) ++ ">>") ∧
    sampleBA.PDFString M = some "<</A/X/B 1>>" ∧
    NewPDFDict.PDFString M = some "<<>>" := by
  refine ⟨?_, rfl, rfl⟩
  exact PDFString_eq_of_entries M d.Dict (fun k v => "/" ++ k ++ specRendering M v)
    (entriesPDFString_of_closed M d.Dict h)

theorem PDFString_layout_witness :
    closedEntries sampleMethods samplePage.Dict = true ∧
    (samplePage.PDFString sampleMethods =
      some ("<<" ++ String.join ((sortStrings (mapKeys samplePage.Dict)).map
        (fun k => "/" ++ k ++ specRendering sampleMethods (samplePage.Find k).1)) ++ ">>") ∧
    sampleBA.PDFString sampleMethods = some "<</A/X/B 1>>" ∧
    NewPDFDict.PDFString sampleMethods = some "<<>>") :=
  ⟨by decide, PDFString_layout sampleMethods samplePage (by decide)⟩

/-! ## Decimal numerals -/

theorem digitChar_value : ∀ x, x < 10 → (Nat.digitChar x).toNat - 48 = x := by decide

theorem digitChar_isDigit : ∀ x, x < 10 → (Nat.digitChar x).isDigit = true := by decide

theorem decimalValue_toDigitsCore (fuel : Nat) :
    ∀ (n : Nat) (ds : List Char), n < fuel →
      decimalValue 0 (Nat.toDigitsCore 10 fuel n ds) = decimalValue n ds := by
  induction fuel with
  | zero => intro n ds h; omega
  | succ fuel ih =>
    intro n ds h
    have hd := digitChar_value (n % 10) (Nat.mod_lt n (by decide))
    simp only [Nat.toDigitsCore]
    by_cases h0 : n / 10 = 0
    · simp only [h0, if_true]
      have hn : n % 10 = n := by omega
      simp only [decimalValue, List.foldl, hd]
      rw [Nat.mul_zero, Nat.zero_add, hn]
    · simp only [h0, if_false]
      rw [ih (n / 10) _ (by omega)]
      simp only [decimalValue, List.foldl, hd]
      congr 1
      omega

theorem toDigitsCore_isDigit (fuel : Nat) :
    ∀ (n : Nat) (ds : List Char), (∀ c ∈ ds, c.isDigit = true) →
      ∀ c ∈ Nat.toDigitsCore 10 fuel n ds, c.isDigit = true := by
  induction fuel with
  | zero => intro n ds h; simpa [Nat.toDigitsCore] using h
  | succ fuel ih =>
    intro n ds h
    have hd := digitChar_isDigit (n % 10) (Nat.mod_lt n (by decide))
    have hds : ∀ c ∈ Nat.digitChar (n % 10) :: ds, c.isDigit = true := by
      intro c hc
      rcases List.mem_cons.mp hc with hc | hc
      · rw [hc]; exact hd
      · exact h c hc
    simp only [Nat.toDigitsCore]
    by_cases h0 : n / 10 = 0
    · simpa only [h0, if_true] using hds
    · simpa only [h0, if_false] using ih (n / 10) _ hds

theorem Nat_repr_injective (a b : Nat) (h : (Nat.repr a).data = (Nat.repr b).data) : a = b := by
  have ha := decimalValue_toDigitsCore (a + 1) a [] (by omega)
  have hb := decimalValue_toDigitsCore (b + 1) b [] (by omega)
  simp only [Nat.repr, Nat.toDigits, List.asString] at h
  rw [h, hb] at ha
  simpa [decimalValue] using ha.symm

theorem Nat_repr_isDigit (a : Nat) : ∀ c ∈ (Nat.repr a).data, c.isDigit = true := by
  simp only [Nat.repr, Nat.toDigits, List.asString]
  exact toDigitsCore_isDigit (a + 1) a [] (by simp)

theorem Int_toString_data (i : Int) :
    (toString i).data =
      match i with
      | Int.ofNat m => (Nat.repr m).data
      | Int.negSucc m => '-' :: (Nat.repr (m + 1)).data := by
  cases i <;> rfl

theorem Int_toString_injective (i j : Int) (h : (toString i).data = (toString j).data) :
    i = j := by
  rw [Int_toString_data, Int_toString_data] at h
  cases i with
  | ofNat a =>
    cases j with
    | ofNat b => simp only at h; rw [Nat_repr_injective a b h]
    | negSucc b =>
      simp only at h
      have := Nat_repr_isDigit a '-' (by rw [h]; simp)
      simp [Char.isDigit] at this
  | negSucc a =>
    cases j with
    | ofNat b =>
      simp only at h
      have := Nat_repr_isDigit b '-' (by rw [← h]; simp)
      simp [Char.isDigit] at this
    | negSucc b =>
      simp only [List.cons.injEq, true_and] at h
      have := Nat_repr_injective _ _ h
      have : a = b := by omega
      rw [this]

theorem Int_toString_numeral (i : Int) : ∀ c ∈ (toString i).data, isNumeralChar c = true := by
  rw [Int_toString_data]
  cases i with
  | ofNat a =>
    intro c hc
    simp [isNumeralChar, Nat_repr_isDigit a c hc]
  | negSucc a =>
    intro c hc
    rcases List.mem_cons.mp hc with hc | hc
    · simp [isNumeralChar, hc]
    · simp [isNumeralChar, Nat_repr_isDigit _ c hc]

theorem isRegularChar_of_numeral (c : Char) (h : isNumeralChar c = true) :
    isRegularChar c = true := by
  simp only [isNumeralChar, Bool.or_eq_true, Char.isDigit, Bool.and_eq_true, decide_eq_true_eq,
    beq_iff_eq] at h
  rcases h with h | h
  · simp only [isRegularChar, isWhiteSpace, isDelimiter, Bool.not_eq_true', Bool.or_eq_false_iff,
      beq_eq_false_iff_ne, ne_eq]
    repeat' constructor
    all_goals (intro hc; subst hc; exact absurd h (by decide))
  · subst h
    decide

/-! ## Reading the canonical form back -/

theorem split_at_first (p : Char → Bool) :
    ∀ (a b : List Char) (x y : Char) (s t : List Char),
      (∀ c ∈ a, p c = true) → (∀ c ∈ b, p c = true) → p x = false → p y = false →
      a ++ x :: s = b ++ y :: t → a = b ∧ x = y ∧ s = t := by
  intro a
  induction a with
  | nil =>
    intro b x y s t _ hb hx _ h
    cases b with
    | nil => simpa using h
    | cons b0 bs =>
      simp only [List.nil_append, List.cons_append, List.cons.injEq] at h
      have := hb b0 (List.mem_cons_self b0 bs)
      rw [← h.1, hx] at this
      exact absurd this (by simp)
  | cons a0 as ih =>
    intro b x y s t ha hb hx hy h
    cases b with
    | nil =>
      simp only [List.nil_append, List.cons_append, List.cons.injEq] at h
      have := ha a0 (List.mem_cons_self a0 as)
      rw [h.1, hy] at this
      exact absurd this (by simp)
    | cons b0 bs =>
      simp only [List.cons_append, List.cons.injEq] at h
      have hr := ih bs x y s t (fun c hc => ha c (List.mem_cons_of_mem a0 hc))
        (fun c hc => hb c (List.mem_cons_of_mem b0 hc)) hx hy h.2
      exact ⟨by rw [h.1, hr.1], hr.2⟩

theorem startsEntryOrEnd_cases (c : List Char) (h : startsEntryOrEnd c = true) :
    ∃ x rest, c = x :: rest ∧ (x = '/' ∨ x = '>') := by
  cases c with
  | nil => simp [startsEntryOrEnd] at h
  | cons x rest =>
    refine ⟨x, rest, rfl, ?_⟩
    simpa [startsEntryOrEnd] using h

theorem startsEntryOrEnd_not_regular (c : List Char) (h : startsEntryOrEnd c = true) :
    ∃ x rest, c = x :: rest ∧ isRegularChar x = false ∧ x ≠ ' ' := by
  obtain ⟨x, rest, hc, hx⟩ := startsEntryOrEnd_cases c h
  refine ⟨x, rest, hc, ?_⟩
  rcases hx with hx | hx <;> subst hx <;> exact ⟨by decide, by decide⟩

theorem regular_of_regularName (s : String) (h : regularName s = true) :
    ∀ c ∈ s.data, isRegularChar c = true := by
  simpa [regularName, List.all_eq_true] using h

theorem Int_toString_regular (i : Int) : ∀ c ∈ (toString i).data, isRegularChar c = true :=
  fun c hc => isRegularChar_of_numeral c (Int_toString_numeral i c hc)

theorem bodyChars_nil (M : Methods) (f : String → Object) : bodyChars M [] f = [] := rfl

theorem bodyChars_cons (M : Methods) (k : String) (ks : List String) (f : String → Object) :
    bodyChars M (k :: ks) f =
      '/' :: (k.data ++ ((specRendering M (f k)).data ++ bodyChars M ks f)) := by
  simp [bodyChars, String.data_join]

theorem startsEntryOrEnd_body (M : Methods) (ks : List String) (f : String → Object)
    (t : List Char) : startsEntryOrEnd (bodyChars M ks f ++ '>' :: '>' :: t) = true := by
  cases ks with
  | nil => simp [bodyChars_nil, startsEntryOrEnd]
  | cons k ks => simp [bodyChars_cons, startsEntryOrEnd]

mutual
theorem closedObject_of_readable (M : Methods) (A : List Object → Bool) (hM : ReadBack M A) :
    ∀ v : Object, readableObject A v = true → closedObject M v = true
  | Object.Boolean _, _ => rfl
  | Object.Integer _, _ => rfl
  | Object.Float _, _ => rfl
  | Object.IndirectRef _, _ => rfl
  | Object.Name _, _ => rfl
  | Object.StringLiteral _, _ => rfl
  | Object.HexLiteral _, _ => rfl
  | Object.Array a, h => by
    simp only [readableObject] at h
    obtain ⟨tl, hs⟩ := hM.array_bracket a h
    simp [closedObject, hs]
  | Object.PDFDict sub, h => by
    simp only [readableObject] at h
    simp only [closedObject]
    exact closedEntries_of_readable M A hM sub h
  | Object.nil, h => by simp [readableObject] at h
  | Object.StreamDict _ _, h => by simp [readableObject] at h
  | Object.other _, h => by simp [readableObject] at h
theorem closedEntries_of_readable (M : Methods) (A : List Object → Bool) (hM : ReadBack M A) :
    ∀ m : List (String × Object), readableEntries A m = true → closedEntries M m = true
  | [], _ => rfl
  | (_, v) :: rest, h => by
    simp only [readableEntries, Bool.and_eq_true] at h
    simp only [closedEntries, Bool.and_eq_true]
    exact ⟨closedObject_of_readable M A hM v h.1.2, closedEntries_of_readable M A hM rest h.2⟩
end

theorem readable_of_lookup (A : List Object → Bool) (m : List (String × Object))
    (h : readableEntries A m = true) (k : String) (v : Object) (hl : m.lookup k = some v) :
    regularName k = true ∧ readableObject A v = true := by
  induction m with
  | nil => simp at hl
  | cons e m ih =>
    obtain ⟨k0, v0⟩ := e
    simp only [readableEntries, Bool.and_eq_true] at h
    rw [List.lookup_cons] at hl
    cases hk : (k == k0) with
    | true =>
      rw [hk] at hl
      simp at hl
      have hkk : k = k0 := by simpa using hk
      rw [← hl, hkk]
      exact h.1
    | false =>
      rw [hk] at hl
      exact ih h.2 hl

theorem readable_of_mem_mapKeys (A : List Object → Bool) (m : List (String × Object))
    (h : readableEntries A m = true) (k : String) (hk : k ∈ mapKeys m) :
    regularName k = true ∧ readableObject A (mapIndex m k).1 = true := by
  rw [mem_mapKeys] at hk
  cases hl : m.lookup k with
  | none => simp [hl] at hk
  | some v =>
    have := readable_of_lookup A m h k v hl
    simpa [mapIndex, hl] using this

theorem data_PDFDict (M : Methods) (A : List Object → Bool) (hM : ReadBack M A)
    (m : List (String × Object)) (h : readableEntries A m = true) :
    (specRendering M (Object.PDFDict m)).data =
      '<' :: '<' :: (bodyChars M (sortStrings (mapKeys m)) (fun k => (mapIndex m k).1)
        ++ ['>', '>']) := by
  have hl := (PDFString_eq_of_entries M m (fun k v => "/" ++ k ++ specRendering M v)
    (entriesPDFString_of_closed M m (closedEntries_of_readable M A hM m h)))
  have e : specRendering M (Object.PDFDict m) = ((PDFDict.mk m).PDFString M).getD "" := rfl
  rw [e, hl, Option.getD_some]
  simp [bodyChars, String.data_join]

theorem data_Array (M : Methods) (A : List Object → Bool) (hM : ReadBack M A)
    (a : List Object) (h : A a = true) :
    ∃ tl, (specRendering M (Object.Array a)).data = '[' :: tl ∧
      M.arrayPDFString a = some (String.mk ('[' :: tl)) := by
  obtain ⟨tl, hs⟩ := hM.array_bracket a h
  refine ⟨tl, ?_, hs⟩
  simp [specRendering, hs]

theorem data_Integer (M : Methods) (i : Int) :
    (specRendering M (Object.Integer i)).data = ' ' :: (toString i).data := by
  simp [specRendering]

theorem data_Float (M : Methods) (f : Nat) :
    (specRendering M (Object.Float f)).data = ' ' :: (M.floatString f).data := by
  simp [specRendering]

theorem data_Boolean (M : Methods) (b : Bool) :
    (specRendering M (Object.Boolean b)).data
      = ' ' :: (if b then ['t', 'r', 'u', 'e'] else ['f', 'a', 'l', 's', 'e']) := by
  cases b <;> simp [specRendering]

theorem data_IndirectRef (M : Methods) (r : IndirectRef) :
    (specRendering M (Object.IndirectRef r)).data
      = ' ' :: ((toString r.ObjectNumber).data
          ++ ' ' :: ((toString r.GenerationNumber).data ++ [' ', 'R'])) := by
  simp [specRendering]

theorem data_Name (M : Methods) (s : String) :
    (specRendering M (Object.Name s)).data = '/' :: s.data := by
  simp [specRendering]

theorem data_StringLiteral (M : Methods) (s : String) :
    (specRendering M (Object.StringLiteral s)).data = '(' :: (s.data ++ [')']) := by
  simp [specRendering]

theorem data_HexLiteral (M : Methods) (s : String) :
    (specRendering M (Object.HexLiteral s)).data = '<' :: (s.data ++ ['>']) := by
  simp [specRendering]

theorem rendering_head (M : Methods) (A : List Object → Bool) (hM : ReadBack M A)
    (v : Object) (h : readableObject A v = true) :
    ∃ x tl, (specRendering M v).data = x :: tl ∧ isRegularChar x = false := by
  cases v with
  | Boolean b => exact ⟨_, _, data_Boolean M b, by decide⟩
  | Integer i => exact ⟨_, _, data_Integer M i, by decide⟩
  | Float f => exact ⟨_, _, data_Float M f, by decide⟩
  | IndirectRef r => exact ⟨_, _, data_IndirectRef M r, by decide⟩
  | Name s => exact ⟨_, _, data_Name M s, by decide⟩
  | StringLiteral s => exact ⟨_, _, data_StringLiteral M s, by decide⟩
  | HexLiteral s => exact ⟨_, _, data_HexLiteral M s, by decide⟩
  | Array a =>
    simp only [readableObject] at h
    obtain ⟨tl, hd, _⟩ := data_Array M A hM a h
    exact ⟨_, _, hd, by decide⟩
  | PDFDict m =>
    simp only [readableObject] at h
    exact ⟨_, _, data_PDFDict M A hM m h, by decide⟩
  | nil => simp [readableObject] at h
  | StreamDict es st => simp [readableObject] at h
  | other t => simp [readableObject] at h

theorem boolChars_regular (b : Bool) :
    ∀ c ∈ (if b then ['t', 'r', 'u', 'e'] else ['f', 'a', 'l', 's', 'e']),
      isRegularChar c = true := by
  cases b <;> decide

theorem boolChars_not_numeral (b : Bool) (i : Int)
    (h : (toString i).data = (if b then ['t', 'r', 'u', 'e'] else ['f', 'a', 'l', 's', 'e'])) :
    False := by
  cases b with
  | true =>
    have := Int_toString_numeral i 't' (by rw [h]; simp)
    exact absurd this (by decide)
  | false =>
    have := Int_toString_numeral i 'f' (by rw [h]; simp)
    exact absurd this (by decide)

theorem boolChars_injective (b1 b2 : Bool)
    (h : (if b1 then ['t', 'r', 'u', 'e'] else ['f', 'a', 'l', 's', 'e'])
      = (if b2 then ['t', 'r', 'u', 'e'] else ['f', 'a', 'l', 's', 'e'])) : b1 = b2 := by
  cases b1 <;> cases b2 <;> simp at h <;> rfl

theorem Boolean_String_data (b : Bool) :
    (Boolean.String b).data
      = (if b then ['t', 'r', 'u', 'e'] else ['f', 'a', 'l', 's', 'e']) := by
  cases b <;> rfl

theorem literalBody_read :
    ∀ (s1 : List Char) (depth : Nat) (esc : Bool) (s2 c1 c2 : List Char),
      literalBody depth esc s1 = true → literalBody depth esc s2 = true →
      s1 ++ ')' :: c1 = s2 ++ ')' :: c2 → s1 = s2 ∧ c1 = c2 := by
  intro s1
  induction s1 with
  | nil =>
    intro depth esc s2 c1 c2 h1 h2 h
    simp only [literalBody, Bool.and_eq_true, beq_iff_eq, Bool.not_eq_true'] at h1
    obtain ⟨hd, he⟩ := h1
    subst hd; subst he
    cases s2 with
    | nil => simpa using h
    | cons b bs =>
      simp only [List.nil_append, List.cons_append, List.cons.injEq] at h
      rw [← h.1] at h2
      simp [literalBody] at h2
  | cons a as ih =>
    intro depth esc s2 c1 c2 h1 h2 h
    cases s2 with
    | nil =>
      simp only [literalBody, Bool.and_eq_true, beq_iff_eq, Bool.not_eq_true'] at h2
      obtain ⟨hd, he⟩ := h2
      subst hd; subst he
      simp only [List.nil_append, List.cons_append, List.cons.injEq] at h
      rw [h.1] at h1
      simp [literalBody] at h1
    | cons b bs =>
      simp only [List.cons_append, List.cons.injEq] at h
      obtain ⟨hab, hrest⟩ := h
      subst hab
      cases esc with
      | true =>
        simp only [literalBody] at h1 h2
        obtain ⟨e1, e2⟩ := ih depth false bs c1 c2 h1 h2 hrest
        exact ⟨by rw [e1], e2⟩
      | false =>
        simp only [literalBody] at h1 h2
        by_cases hb : a = '\\'
        · simp only [hb, if_true] at h1 h2
          obtain ⟨e1, e2⟩ := ih depth true bs c1 c2 h1 h2 hrest
          exact ⟨by rw [e1], e2⟩
        · by_cases ho : a = '('
          · simp only [ho, if_true] at h1 h2
            have h1b : literalBody (depth + 1) false as = true := by simpa using h1
            have h2b : literalBody (depth + 1) false bs = true := by simpa using h2
            obtain ⟨e1, e2⟩ := ih (depth + 1) false bs c1 c2 h1b h2b hrest
            exact ⟨by rw [e1], e2⟩
          · by_cases hc : a = ')'
            · cases depth with
              | zero => simp [hc] at h1
              | succ n =>
                have h1b : literalBody n false as = true := by simpa [hc] using h1
                have h2b : literalBody n false bs = true := by simpa [hc] using h2
                obtain ⟨e1, e2⟩ := ih n false bs c1 c2 h1b h2b hrest
                exact ⟨by rw [e1], e2⟩
            · simp only [hb, ho, hc, if_false] at h1 h2
              obtain ⟨e1, e2⟩ := ih depth false bs c1 c2 h1 h2 hrest
              exact ⟨by rw [e1], e2⟩

theorem hex_not_dict (s : String) (h1 : hexBody s.data = true)
    (a b : List Char) (h : s.data ++ '>' :: a = '<' :: b) : False := by
  cases hs : s.data with
  | nil =>
    rw [hs] at h
    simp at h
  | cons x xs =>
    rw [hs] at h h1
    simp only [List.cons_append, List.cons.injEq] at h
    rw [h.1] at h1
    simp [hexBody] at h1

theorem hexBody_all (cs : List Char) (h : hexBody cs = true) :
    ∀ c ∈ cs, (fun c => c != '>') c = true := by
  simp only [hexBody, Bool.and_eq_true, List.all_eq_true] at h
  exact h.1

theorem valueInjective_Integer (M : Methods) (A : List Object → Bool) (hM : ReadBack M A)
    (i : Int) : ValueInjective M A (Object.Integer i) := by
  intro v2 h2 c1 c2 hc1 hc2 h
  obtain ⟨x1, r1, rfl, hx1, hx1s⟩ := startsEntryOrEnd_not_regular c1 hc1
  obtain ⟨x2, r2, rfl, hx2, hx2s⟩ := startsEntryOrEnd_not_regular c2 hc2
  rw [data_Integer] at h
  cases v2 with
  | Integer j =>
    rw [data_Integer] at h
    simp only [List.cons_append, List.cons.injEq, true_and, List.append_assoc,
      List.nil_append] at h
    obtain ⟨hd, hx, hr⟩ := split_at_first isRegularChar _ _ _ _ _ _
      (Int_toString_regular i) (Int_toString_regular j) hx1 hx2 h
    rw [Int_toString_injective i j hd, hx, hr]
    exact ⟨SameValue.refl _, rfl⟩
  | Float g =>
    rw [data_Float] at h
    simp only [List.cons_append, List.cons.injEq, true_and, List.append_assoc,
      List.nil_append] at h
    obtain ⟨hd, _, _⟩ := split_at_first isRegularChar _ _ _ _ _ _
      (Int_toString_regular i) (hM.float_regular g) hx1 hx2 h
    exact absurd (String.ext hd.symm) (hM.float_not_integer g i)
  | Boolean b2 =>
    rw [data_Boolean] at h
    simp only [List.cons_append, List.cons.injEq, true_and, List.append_assoc,
      List.nil_append] at h
    obtain ⟨hd, _, _⟩ := split_at_first isRegularChar _ _ _ _ _ _
      (Int_toString_regular i) (boolChars_regular b2) hx1 hx2 h
    exact (boolChars_not_numeral b2 i hd).elim
  | IndirectRef r2 =>
    rw [data_IndirectRef] at h
    simp only [List.cons_append, List.cons.injEq, true_and, List.append_assoc,
      List.nil_append] at h
    obtain ⟨_, hx, _⟩ := split_at_first isRegularChar _ _ _ _ _ _
      (Int_toString_regular i) (Int_toString_regular _) hx1 (by decide) h
    exact absurd hx hx1s
  | Name s2 => rw [data_Name] at h; simp at h
  | StringLiteral s2 => rw [data_StringLiteral] at h; simp at h
  | HexLiteral s2 => rw [data_HexLiteral] at h; simp at h
  | Array a2 =>
    simp only [readableObject] at h2
    obtain ⟨tl2, hd2, _⟩ := data_Array M A hM a2 h2
    rw [hd2] at h
    simp at h
  | PDFDict m2 =>
    simp only [readableObject] at h2
    rw [data_PDFDict M A hM m2 h2] at h
    simp at h
  | nil => simp [readableObject] at h2
  | StreamDict es st => simp [readableObject] at h2
  | other t => simp [readableObject] at h2

theorem valueInjective_Float (M : Methods) (A : List Object → Bool) (hM : ReadBack M A)
    (f : Nat) : ValueInjective M A (Object.Float f) := by
  intro v2 h2 c1 c2 hc1 hc2 h
  obtain ⟨x1, r1, rfl, hx1, hx1s⟩ := startsEntryOrEnd_not_regular c1 hc1
  obtain ⟨x2, r2, rfl, hx2, hx2s⟩ := startsEntryOrEnd_not_regular c2 hc2
  rw [data_Float] at h
  cases v2 with
  | Integer j =>
    rw [data_Integer] at h
    simp only [List.cons_append, List.cons.injEq, true_and, List.append_assoc,
      List.nil_append] at h
    obtain ⟨hd, _, _⟩ := split_at_first isRegularChar _ _ _ _ _ _
      (hM.float_regular f) (Int_toString_regular j) hx1 hx2 h
    exact absurd (String.ext hd) (hM.float_not_integer f j)
  | Float g =>
    rw [data_Float] at h
    simp only [List.cons_append, List.cons.injEq, true_and, List.append_assoc,
      List.nil_append] at h
    obtain ⟨hd, hx, hr⟩ := split_at_first isRegularChar _ _ _ _ _ _
      (hM.float_regular f) (hM.float_regular g) hx1 hx2 h
    rw [hM.float_injective f g (String.ext hd), hx, hr]
    exact ⟨SameValue.refl _, rfl⟩
  | Boolean b2 =>
    rw [data_Boolean] at h
    simp only [List.cons_append, List.cons.injEq, true_and, List.append_assoc,
      List.nil_append] at h
    obtain ⟨hd, _, _⟩ := split_at_first isRegularChar _ _ _ _ _ _
      (hM.float_regular f) (boolChars_regular b2) hx1 hx2 h
    exact absurd (String.ext (hd.trans (Boolean_String_data b2).symm))
      (hM.float_not_boolean f b2)
  | IndirectRef r2 =>
    rw [data_IndirectRef] at h
    simp only [List.cons_append, List.cons.injEq, true_and, List.append_assoc,
      List.nil_append] at h
    obtain ⟨_, hx, _⟩ := split_at_first isRegularChar _ _ _ _ _ _
      (hM.float_regular f) (Int_toString_regular _) hx1 (by decide) h
    exact absurd hx hx1s
  | Name s2 => rw [data_Name] at h; simp at h
  | StringLiteral s2 => rw [data_StringLiteral] at h; simp at h
  | HexLiteral s2 => rw [data_HexLiteral] at h; simp at h
  | Array a2 =>
    simp only [readableObject] at h2
    obtain ⟨tl2, hd2, _⟩ := data_Array M A hM a2 h2
    rw [hd2] at h
    simp at h
  | PDFDict m2 =>
    simp only [readableObject] at h2
    rw [data_PDFDict M A hM m2 h2] at h
    simp at h
  | nil => simp [readableObject] at h2
  | StreamDict es st => simp [readableObject] at h2
  | other t => simp [readableObject] at h2

theorem valueInjective_Boolean (M : Methods) (A : List Object → Bool) (hM : ReadBack M A)
    (b : Bool) : ValueInjective M A (Object.Boolean b) := by
  intro v2 h2 c1 c2 hc1 hc2 h
  obtain ⟨x1, r1, rfl, hx1, hx1s⟩ := startsEntryOrEnd_not_regular c1 hc1
  obtain ⟨x2, r2, rfl, hx2, hx2s⟩ := startsEntryOrEnd_not_regular c2 hc2
  rw [data_Boolean] at h
  cases v2 with
  | Integer j =>
    rw [data_Integer] at h
    simp only [List.cons_append, List.cons.injEq, true_and, List.append_assoc,
      List.nil_append] at h
    obtain ⟨hd, _, _⟩ := split_at_first isRegularChar _ _ _ _ _ _
      (boolChars_regular b) (Int_toString_regular j) hx1 hx2 h
    exact (boolChars_not_numeral b j hd.symm).elim
  | Float g =>
    rw [data_Float] at h
    simp only [List.cons_append, List.cons.injEq, true_and, List.append_assoc,
      List.nil_append] at h
    obtain ⟨hd, _, _⟩ := split_at_first isRegularChar _ _ _ _ _ _
      (boolChars_regular b) (hM.float_regular g) hx1 hx2 h
    exact absurd (String.ext (hd.symm.trans (Boolean_String_data b).symm))
      (hM.float_not_boolean g b)
  | Boolean b2 =>
    rw [data_Boolean] at h
    simp only [List.cons_append, List.cons.injEq, true_and, List.append_assoc,
      List.nil_append] at h
    obtain ⟨hd, hx, hr⟩ := split_at_first isRegularChar _ _ _ _ _ _
      (boolChars_regular b) (boolChars_regular b2) hx1 hx2 h
    rw [boolChars_injective b b2 hd, hx, hr]
    exact ⟨SameValue.refl _, rfl⟩
  | IndirectRef r2 =>
    rw [data_IndirectRef] at h
    simp only [List.cons_append, List.cons.injEq, true_and, List.append_assoc,
      List.nil_append] at h
    obtain ⟨_, hx, _⟩ := split_at_first isRegularChar _ _ _ _ _ _
      (boolChars_regular b) (Int_toString_regular _) hx1 (by decide) h
    exact absurd hx hx1s
  | Name s2 => rw [data_Name] at h; simp at h
  | StringLiteral s2 => rw [data_StringLiteral] at h; simp at h
  | HexLiteral s2 => rw [data_HexLiteral] at h; simp at h
  | Array a2 =>
    simp only [readableObject] at h2
    obtain ⟨tl2, hd2, _⟩ := data_Array M A hM a2 h2
    rw [hd2] at h
    simp at h
  | PDFDict m2 =>
    simp only [readableObject] at h2
    rw [data_PDFDict M A hM m2 h2] at h
    simp at h
  | nil => simp [readableObject] at h2
  | StreamDict es st => simp [readableObject] at h2
  | other t => simp [readableObject] at h2

theorem valueInjective_IndirectRef (M : Methods) (A : List Object → Bool)
    (hM : ReadBack M A) (r : IndirectRef) :
    ValueInjective M A (Object.IndirectRef r) := by
  intro v2 h2 c1 c2 hc1 hc2 h
  obtain ⟨x1, r1, rfl, hx1, hx1s⟩ := startsEntryOrEnd_not_regular c1 hc1
  obtain ⟨x2, r2, rfl, hx2, hx2s⟩ := startsEntryOrEnd_not_regular c2 hc2
  rw [data_IndirectRef] at h
  cases v2 with
  | Integer j =>
    rw [data_Integer] at h
    simp only [List.cons_append, List.cons.injEq, true_and, List.append_assoc,
      List.nil_append] at h
    obtain ⟨_, hx, _⟩ := split_at_first isRegularChar _ _ _ _ _ _
      (Int_toString_regular _) (Int_toString_regular j) (by decide) hx2 h
    exact absurd hx.symm hx2s
  | Float g =>
    rw [data_Float] at h
    simp only [List.cons_append, List.cons.injEq, true_and, List.append_assoc,
      List.nil_append] at h
    obtain ⟨_, hx, _⟩ := split_at_first isRegularChar _ _ _ _ _ _
      (Int_toString_regular _) (hM.float_regular g) (by decide) hx2 h
    exact absurd hx.symm hx2s
  | Boolean b2 =>
    rw [data_Boolean] at h
    simp only [List.cons_append, List.cons.injEq, true_and, List.append_assoc,
      List.nil_append] at h
    obtain ⟨_, hx, _⟩ := split_at_first isRegularChar _ _ _ _ _ _
      (Int_toString_regular _) (boolChars_regular b2) (by decide) hx2 h
    exact absurd hx.symm hx2s
  | IndirectRef r2 =>
    rw [data_IndirectRef] at h
    simp only [List.cons_append, List.cons.injEq, true_and, List.append_assoc,
      List.nil_append] at h
    obtain ⟨ho, _, hrest⟩ := split_at_first isRegularChar _ _ _ _ _ _
      (Int_toString_regular _) (Int_toString_regular _) (by decide) (by decide) h
    obtain ⟨hg, _, hrest2⟩ := split_at_first isRegularChar _ _ _ _ _ _
      (Int_toString_regular _) (Int_toString_regular _) (by decide) (by decide) hrest
    have e1 := Int_toString_injective _ _ ho
    have e2 := Int_toString_injective _ _ hg
    have er : r = r2 := by
      cases r; cases r2
      simp only at e1 e2
      rw [e1, e2]
    simp only [List.cons.injEq, true_and] at hrest2
    rw [er, hrest2.1, hrest2.2]
    exact ⟨SameValue.refl _, rfl⟩
  | Name s2 => rw [data_Name] at h; simp at h
  | StringLiteral s2 => rw [data_StringLiteral] at h; simp at h
  | HexLiteral s2 => rw [data_HexLiteral] at h; simp at h
  | Array a2 =>
    simp only [readableObject] at h2
    obtain ⟨tl2, hd2, _⟩ := data_Array M A hM a2 h2
    rw [hd2] at h
    simp at h
  | PDFDict m2 =>
    simp only [readableObject] at h2
    rw [data_PDFDict M A hM m2 h2] at h
    simp at h
  | nil => simp [readableObject] at h2
  | StreamDict es st => simp [readableObject] at h2
  | other t => simp [readableObject] at h2

theorem valueInjective_Name (M : Methods) (A : List Object → Bool) (hM : ReadBack M A)
    (s : String) (h1 : regularName s = true) : ValueInjective M A (Object.Name s) := by
  intro v2 h2 c1 c2 hc1 hc2 h
  obtain ⟨x1, r1, rfl, hx1, hx1s⟩ := startsEntryOrEnd_not_regular c1 hc1
  obtain ⟨x2, r2, rfl, hx2, hx2s⟩ := startsEntryOrEnd_not_regular c2 hc2
  rw [data_Name] at h
  cases v2 with
  | Integer j => rw [data_Integer] at h; simp at h
  | Float g => rw [data_Float] at h; simp at h
  | Boolean b2 => rw [data_Boolean] at h; simp at h
  | IndirectRef r2 => rw [data_IndirectRef] at h; simp at h
  | Name s2 =>
    simp only [readableObject] at h2
    rw [data_Name] at h
    simp only [List.cons_append, List.cons.injEq, true_and] at h
    obtain ⟨hd, hx, hr⟩ := split_at_first isRegularChar _ _ _ _ _ _
      (regular_of_regularName s h1) (regular_of_regularName s2 h2) hx1 hx2 h
    rw [String.ext hd, hx, hr]
    exact ⟨SameValue.refl _, rfl⟩
  | StringLiteral s2 => rw [data_StringLiteral] at h; simp at h
  | HexLiteral s2 => rw [data_HexLiteral] at h; simp at h
  | Array a2 =>
    simp only [readableObject] at h2
    obtain ⟨tl2, hd2, _⟩ := data_Array M A hM a2 h2
    rw [hd2] at h
    simp at h
  | PDFDict m2 =>
    simp only [readableObject] at h2
    rw [data_PDFDict M A hM m2 h2] at h
    simp at h
  | nil => simp [readableObject] at h2
  | StreamDict es st => simp [readableObject] at h2
  | other t => simp [readableObject] at h2

theorem valueInjective_StringLiteral (M : Methods) (A : List Object → Bool)
    (hM : ReadBack M A) (s : String) (h1 : literalBody 0 false s.data = true) :
    ValueInjective M A (Object.StringLiteral s) := by
  intro v2 h2 c1 c2 _ _ h
  rw [data_StringLiteral] at h
  cases v2 with
  | Integer j => rw [data_Integer] at h; simp at h
  | Float g => rw [data_Float] at h; simp at h
  | Boolean b2 => rw [data_Boolean] at h; simp at h
  | IndirectRef r2 => rw [data_IndirectRef] at h; simp at h
  | Name s2 => rw [data_Name] at h; simp at h
  | StringLiteral s2 =>
    simp only [readableObject] at h2
    rw [data_StringLiteral] at h
    simp only [List.cons_append, List.cons.injEq, true_and, List.append_assoc,
      List.nil_append] at h
    obtain ⟨hd, hr⟩ := literalBody_read s.data 0 false s2.data c1 c2 h1 h2 h
    rw [String.ext hd, hr]
    exact ⟨SameValue.refl _, rfl⟩
  | HexLiteral s2 => rw [data_HexLiteral] at h; simp at h
  | Array a2 =>
    simp only [readableObject] at h2
    obtain ⟨tl2, hd2, _⟩ := data_Array M A hM a2 h2
    rw [hd2] at h
    simp at h
  | PDFDict m2 =>
    simp only [readableObject] at h2
    rw [data_PDFDict M A hM m2 h2] at h
    simp at h
  | nil => simp [readableObject] at h2
  | StreamDict es st => simp [readableObject] at h2
  | other t => simp [readableObject] at h2

theorem valueInjective_HexLiteral (M : Methods) (A : List Object → Bool)
    (hM : ReadBack M A) (s : String)
    (h1 : hexBody s.data = true) :
    ValueInjective M A (Object.HexLiteral s) := by
  intro v2 h2 c1 c2 _ _ h
  rw [data_HexLiteral] at h
  cases v2 with
  | Integer j => rw [data_Integer] at h; simp at h
  | Float g => rw [data_Float] at h; simp at h
  | Boolean b2 => rw [data_Boolean] at h; simp at h
  | IndirectRef r2 => rw [data_IndirectRef] at h; simp at h
  | Name s2 => rw [data_Name] at h; simp at h
  | StringLiteral s2 => rw [data_StringLiteral] at h; simp at h
  | HexLiteral s2 =>
    simp only [readableObject] at h2
    rw [data_HexLiteral] at h
    simp only [List.cons_append, List.cons.injEq, true_and, List.append_assoc,
      List.nil_append] at h
    obtain ⟨hd, _, hr⟩ := split_at_first (fun c => c != '>') _ _ _ _ _ _
      (hexBody_all _ h1) (hexBody_all _ h2) (by decide) (by decide) h
    rw [String.ext hd, hr]
    exact ⟨SameValue.refl _, rfl⟩
  | Array a2 =>
    simp only [readableObject] at h2
    obtain ⟨tl2, hd2, _⟩ := data_Array M A hM a2 h2
    rw [hd2] at h
    simp at h
  | PDFDict m2 =>
    simp only [readableObject] at h2
    rw [data_PDFDict M A hM m2 h2] at h
    simp only [List.cons_append, List.cons.injEq, true_and, List.append_assoc,
      List.nil_append] at h
    exact (hex_not_dict s h1 _ _ h).elim
  | nil => simp [readableObject] at h2
  | StreamDict es st => simp [readableObject] at h2
  | other t => simp [readableObject] at h2

theorem valueInjective_Array (M : Methods) (A : List Object → Bool)
    (hM : ReadBack M A) (a : List Object) (h1 : A a = true) :
    ValueInjective M A (Object.Array a) := by
  intro v2 h2 c1 c2 hc1 hc2 h
  obtain ⟨tl, hd, hs⟩ := data_Array M A hM a h1
  cases v2 with
  | Integer j => rw [hd, data_Integer] at h; simp at h
  | Float g => rw [hd, data_Float] at h; simp at h
  | Boolean b2 => rw [hd, data_Boolean] at h; simp at h
  | IndirectRef r2 => rw [hd, data_IndirectRef] at h; simp at h
  | Name s2 => rw [hd, data_Name] at h; simp at h
  | StringLiteral s2 => rw [hd, data_StringLiteral] at h; simp at h
  | HexLiteral s2 => rw [hd, data_HexLiteral] at h; simp at h
  | Array a2 =>
    simp only [readableObject] at h2
    obtain ⟨tl2, hd2, hs2⟩ := data_Array M A hM a2 h2
    rw [hd, hd2] at h
    obtain ⟨ha, hc⟩ := hM.array_read a a2 _ _ c1 c2 h1 h2 hs hs2 hc1 hc2 h
    rw [ha, hc]
    exact ⟨SameValue.refl _, rfl⟩
  | PDFDict m2 =>
    simp only [readableObject] at h2
    rw [hd, data_PDFDict M A hM m2 h2] at h
    simp at h
  | nil => simp [readableObject] at h2
  | StreamDict es st => simp [readableObject] at h2
  | other t => simp [readableObject] at h2

theorem body_injective (M : Methods) (A : List Object → Bool) (hM : ReadBack M A)
    (f1 f2 : String → Object) :
    ∀ (ks1 ks2 : List String) (t1 t2 : List Char),
      (∀ k ∈ ks1, regularName k = true ∧ readableObject A (f1 k) = true ∧
        ValueInjective M A (f1 k)) →
      (∀ k ∈ ks2, regularName k = true ∧ readableObject A (f2 k) = true) →
      bodyChars M ks1 f1 ++ '>' :: '>' :: t1 = bodyChars M ks2 f2 ++ '>' :: '>' :: t2 →
      ks1 = ks2 ∧ (∀ k ∈ ks1, SameValue (f1 k) (f2 k)) ∧ t1 = t2 := by
  intro ks1
  induction ks1 with
  | nil =>
    intro ks2 t1 t2 _ _ h
    cases ks2 with
    | nil =>
      simp only [bodyChars_nil, List.nil_append, List.cons.injEq, true_and] at h
      exact ⟨rfl, by simp, h⟩
    | cons k2 r2 =>
      rw [bodyChars_nil, bodyChars_cons] at h
      simp at h
  | cons k1 r1 ih =>
    intro ks2 t1 t2 h1 h2 h
    cases ks2 with
    | nil =>
      rw [bodyChars_nil, bodyChars_cons] at h
      simp at h
    | cons k2 r2 =>
      obtain ⟨hk1, hs1, hv1⟩ := h1 k1 (List.mem_cons_self k1 r1)
      obtain ⟨hk2, hs2⟩ := h2 k2 (List.mem_cons_self k2 r2)
      obtain ⟨x1, tl1, hd1, hx1⟩ := rendering_head M A hM (f1 k1) hs1
      obtain ⟨x2, tl2, hd2, hx2⟩ := rendering_head M A hM (f2 k2) hs2
      rw [bodyChars_cons, bodyChars_cons] at h
      simp only [List.cons_append, List.cons.injEq, true_and, List.append_assoc] at h
      have h3 := h
      rw [hd1, hd2] at h3
      simp only [List.cons_append] at h3
      obtain ⟨hkd, _, _⟩ := split_at_first isRegularChar _ _ _ _ _ _
        (regular_of_regularName k1 hk1) (regular_of_regularName k2 hk2) hx1 hx2 h3
      have hk : k1 = k2 := String.ext hkd
      subst hk
      have h4 := List.append_cancel_left h
      obtain ⟨hsame, hrest⟩ := hv1 (f2 k1) hs2 _ _
        (startsEntryOrEnd_body M r1 f1 t1) (startsEntryOrEnd_body M r2 f2 t2) h4
      obtain ⟨hr, hvals, ht⟩ := ih r2 t1 t2
        (fun k hk => h1 k (List.mem_cons_of_mem k1 hk))
        (fun k hk => h2 k (List.mem_cons_of_mem k1 hk)) hrest
      refine ⟨by rw [hr], ?_, ht⟩
      intro k hk
      rcases List.mem_cons.mp hk with hk | hk
      · rw [hk]; exact hsame
      · exact hvals k hk

theorem valueInjective_PDFDict (M : Methods) (A : List Object → Bool) (hM : ReadBack M A)
    (m1 : List (String × Object)) (h1 : readableEntries A m1 = true)
    (ih : ∀ k v, m1.lookup k = some v → ValueInjective M A v) :
    ValueInjective M A (Object.PDFDict m1) := by
  intro v2 h2 c1 c2 _ _ h
  rw [data_PDFDict M A hM m1 h1] at h
  cases v2 with
  | PDFDict m2 =>
    simp only [readableObject] at h2
    rw [data_PDFDict M A hM m2 h2] at h
    simp only [List.cons_append, List.cons.injEq, true_and, List.append_assoc,
      List.nil_append] at h
    obtain ⟨hks, hvals, hc⟩ := body_injective M A hM (fun k => (mapIndex m1 k).1)
      (fun k => (mapIndex m2 k).1) _ _ c1 c2
      (fun k hk => by
        rw [mem_sortStrings] at hk
        have hs := readable_of_mem_mapKeys A m1 h1 k hk
        refine ⟨hs.1, hs.2, ?_⟩
        rw [mem_mapKeys] at hk
        cases hl : m1.lookup k with
        | none => simp [hl] at hk
        | some v =>
          have hv := ih k v hl
          simpa [mapIndex, hl] using hv)
      (fun k hk => by
        rw [mem_sortStrings] at hk
        exact readable_of_mem_mapKeys A m2 h2 k hk)
      h
    refine ⟨SameValue.dict m1 m2 ?_ ?_, hc⟩
    · intro k
      have e1 := mem_mapKeys_iff_found m1 k
      have e2 := mem_mapKeys_iff_found m2 k
      rw [← mem_sortStrings, hks, mem_sortStrings] at e1
      have e3 : (mapIndex m1 k).2 = true ↔ (mapIndex m2 k).2 = true := e1.symm.trans e2
      cases ha : (mapIndex m1 k).2 <;> cases hb : (mapIndex m2 k).2 <;> simp [ha, hb] at e3 ⊢
    · intro k
      by_cases hk : k ∈ sortStrings (mapKeys m1)
      · exact hvals k hk
      · have hk2 : k ∉ sortStrings (mapKeys m2) := by rw [← hks]; exact hk
        rw [mem_sortStrings] at hk hk2
        rw [mapIndex_of_not_mem m1 k hk, mapIndex_of_not_mem m2 k hk2]
        exact SameValue.refl _
  | HexLiteral s =>
    simp only [readableObject] at h2
    rw [data_HexLiteral] at h
    simp only [List.cons_append, List.cons.injEq, true_and, List.append_assoc,
      List.nil_append] at h
    exact (hex_not_dict s h2 _ _ h.symm).elim
  | Array a2 =>
    simp only [readableObject] at h2
    obtain ⟨tl2, hd2, _⟩ := data_Array M A hM a2 h2
    rw [hd2] at h
    simp at h
  | Integer j => rw [data_Integer] at h; simp at h
  | Float g => rw [data_Float] at h; simp at h
  | Boolean b => rw [data_Boolean] at h; simp at h
  | IndirectRef r => rw [data_IndirectRef] at h; simp at h
  | Name s => rw [data_Name] at h; simp at h
  | StringLiteral s => rw [data_StringLiteral] at h; simp at h
  | nil => simp [readableObject] at h2
  | StreamDict es st => simp [readableObject] at h2
  | other t => simp [readableObject] at h2

mutual
theorem valueInjective_of_readable (M : Methods) (A : List Object → Bool)
    (hM : ReadBack M A) :
    ∀ v : Object, readableObject A v = true → ValueInjective M A v
  | Object.Boolean b, _ => valueInjective_Boolean M A hM b
  | Object.Integer i, _ => valueInjective_Integer M A hM i
  | Object.Float f, _ => valueInjective_Float M A hM f
  | Object.IndirectRef r, _ => valueInjective_IndirectRef M A hM r
  | Object.Name s, h => valueInjective_Name M A hM s (by simpa [readableObject] using h)
  | Object.StringLiteral s, h =>
    valueInjective_StringLiteral M A hM s (by simpa only [readableObject] using h)
  | Object.HexLiteral s, h =>
    valueInjective_HexLiteral M A hM s (by simpa only [readableObject] using h)
  | Object.Array a, h =>
    valueInjective_Array M A hM a (by simpa only [readableObject] using h)
  | Object.PDFDict sub, h =>
    valueInjective_PDFDict M A hM sub (by simpa only [readableObject] using h)
      (entriesInjective_of_readable M A hM sub (by simpa only [readableObject] using h))
  | Object.nil, h => by simp [readableObject] at h
  | Object.StreamDict _ _, h => by simp [readableObject] at h
  | Object.other _, h => by simp [readableObject] at h
theorem entriesInjective_of_readable (M : Methods) (A : List Object → Bool)
    (hM : ReadBack M A) :
    ∀ m : List (String × Object), readableEntries A m = true →
      ∀ k v, m.lookup k = some v → ValueInjective M A v
  | [], _ => by intro k v hl; simp at hl
  | (k0, v0) :: rest, h => by
    intro k v hl
    simp only [readableEntries, Bool.and_eq_true] at h
    rw [List.lookup_cons] at hl
    cases hk : (k == k0) with
    | true =>
      rw [hk] at hl
      simp at hl
      rw [← hl]
      exact valueInjective_of_readable M A hM v0 h.1.2
    | false =>
      rw [hk] at hl
      exact entriesInjective_of_readable M A hM rest h.2 k v hl
end

/-- C13: for every dictionary and key, Delete on a present key returns the
value that was stored at the key and afterwards Find reports found=false;
Delete on an absent key returns nil and leaves the dictionary unchanged. -/
theorem Delete_spec (d : PDFDict) (k : String) :
    (∀ v, d.Find k = (v, true) →
      (d.Delete k).2 = v ∧ (d.Delete k).1.Find k = (Object.nil, false)) ∧
    (k ∉ mapKeys d.Dict → (d.Delete k).2 = Object.nil ∧ (d.Delete k).1 = d) := by
  constructor
  · intro v h
    have hd : d.Delete k = (⟨mapDelete d.Dict k⟩, v) := by simp [PDFDict.Delete, h]
    rw [hd]
    exact ⟨rfl, mapIndex_mapDelete_self d.Dict k⟩
  · intro h
    have hf : d.Find k = (Object.nil, false) := mapIndex_of_not_mem d.Dict k h
    have hd : d.Delete k = (d, Object.nil) := by simp [PDFDict.Delete, hf]
    rw [hd]
    exact ⟨rfl, rfl⟩

theorem Delete_spec_witness :
    ((samplePage.Delete "Rotate").2 = Object.Integer 90 ∧
      (samplePage.Delete "Rotate").1.Find "Rotate" = (Object.nil, false)) ∧
    ((samplePage.Delete "Contents").2 = Object.nil ∧
      (samplePage.Delete "Contents").1 = samplePage) :=
  ⟨(Delete_spec samplePage "Rotate").1 (Object.Integer 90) rfl,
   (Delete_spec samplePage "Contents").2 (by decide)⟩

/-! ## The convenience accessors -/

/-- C14: for every dictionary, IsObjStm is true if and only if the entry Type is
present and is the Name ObjStm; it is false when Type is absent, is a Name with
any other value, or is a value that is not a Name, such as the StringLiteral
ObjStm. -/
theorem IsObjStm_iff (d : PDFDict) :
    (d.IsObjStm = true ↔ d.Find "Type" = (Object.Name "ObjStm", true)) ∧
    ("Type" ∉ mapKeys d.Dict → d.IsObjStm = false) ∧
    (∀ s, d.Find "Type" = (Object.Name s, true) → s ≠ "ObjStm" → d.IsObjStm = false) ∧
    (∀ v, d.Find "Type" = (v, true) → (∀ s, v ≠ Object.Name s) → d.IsObjStm = false) ∧
    sampleTypeString.IsObjStm = false := by
  refine ⟨?_, ?_, ?_, ?_, rfl⟩
  · rcases hfd : d.Find "Type" with ⟨v, found⟩
    cases found <;> cases v <;>
      simp [PDFDict.IsObjStm, PDFDict.Type, PDFDict.NameEntry, hfd]
  · intro h
    have hf : d.Find "Type" = (Object.nil, false) := mapIndex_of_not_mem d.Dict "Type" h
    simp [PDFDict.IsObjStm, PDFDict.Type, PDFDict.NameEntry, hf]
  · intro s h hs
    simp [PDFDict.IsObjStm, PDFDict.Type, PDFDict.NameEntry, h, hs]
  · intro v h hv
    cases v with
    | Name s => exact absurd rfl (hv s)
    | _ => simp [PDFDict.IsObjStm, PDFDict.Type, PDFDict.NameEntry, h]

theorem IsObjStm_iff_witness :
    sampleObjStm.IsObjStm = true ∧ samplePage.IsObjStm = false ∧
    sampleTypeString.IsObjStm = false ∧ NewPDFDict.IsObjStm = false :=
  ⟨(IsObjStm_iff sampleObjStm).1.mpr rfl,
   (IsObjStm_iff samplePage).2.2.1 "Page" rfl (by decide),
   (IsObjStm_iff sampleTypeString).2.2.2.1 (Object.StringLiteral "ObjStm") rfl
     (fun s h => Object.noConfusion h),
   (IsObjStm_iff NewPDFDict).2.1 (by decide)⟩

/-- C16: for every dictionary, each convenience accessor equals the typed
accessor at its fixed key (Type, Subtype, Size, W, Prev, Index, N, First), and
IsLinearizationParmDict is true if and only if the entry Linearized is present
and is an Integer. -/
theorem convenience_accessors (d : PDFDict) :
    d.Type = d.NameEntry "Type" ∧ d.Subtype = d.NameEntry "Subtype" ∧
    d.Size = d.IntEntry "Size" ∧ d.W = d.ArrayEntry "W" ∧
    d.Prev = d.Int64Entry "Prev" ∧ d.Index = d.ArrayEntry "Index" ∧
    d.N = d.IntEntry "N" ∧ d.First = d.IntEntry "First" ∧
    (d.IsLinearizationParmDict = true ↔
      ∃ i, d.Find "Linearized" = (Object.Integer i, true)) := by
  refine ⟨rfl, rfl, rfl, rfl, rfl, rfl, rfl, rfl, ?_⟩
  rcases hfd : d.Find "Linearized" with ⟨v, found⟩
  cases found <;> cases v <;>
    simp [PDFDict.IsLinearizationParmDict, PDFDict.IntEntry, hfd]

theorem convenience_accessors_witness :
    sampleLinearized.IsLinearizationParmDict = true ∧
    sampleObjStm.N = some 3 ∧ sampleObjStm.First = some 18 ∧
    sampleObjStm.Type = some "ObjStm" :=
  ⟨(convenience_accessors sampleLinearized).2.2.2.2.2.2.2.2.mpr ⟨1, rfl⟩,
   (convenience_accessors sampleObjStm).2.2.2.2.2.2.1.trans rfl,
   (convenience_accessors sampleObjStm).2.2.2.2.2.2.2.1.trans rfl,
   (convenience_accessors sampleObjStm).1.trans rfl⟩

/-! ## The typed insert shortcuts -/

theorem Insert_of_absent (d : PDFDict) (k : String) (v : Object) (h : k ∉ mapKeys d.Dict) :
    d.Insert k v = (⟨mapAssign d.Dict k v⟩, true) := by
  have hf : (d.Find k).2 = false := by
    simp [PDFDict.Find, mapIndex_of_not_mem d.Dict k h]
  simp [PDFDict.Insert, hf]

theorem Insert_of_present (d : PDFDict) (k : String) (v : Object) (h : k ∈ mapKeys d.Dict) :
    d.Insert k v = (d, false) := by
  have hf : (d.Find k).2 = true := (mem_mapKeys_iff_found d.Dict k).mp h
  simp [PDFDict.Insert, hf]

/-- C17: each typed insert shortcut behaves exactly as Insert with the raw value
wrapped in the matching variant: InsertInt, InsertFloat, InsertString and
InsertName leave the dictionary in the state Insert leaves it in with an
Integer, Float, StringLiteral and Name; so when the key is absent, afterwards
IntEntry, StringLiteralEntry and NameEntry of the key return the raw value, and
when the key is already present the dictionary is unchanged. -/
theorem typed_insert_shortcuts (d : PDFDict) (k : String) :
    ((∀ n, d.InsertInt k n = (d.Insert k (Object.Integer n)).1) ∧
      (∀ f, d.InsertFloat k f = (d.Insert k (Object.Float f)).1) ∧
      (∀ s, d.InsertString k s = (d.Insert k (Object.StringLiteral s)).1) ∧
      (∀ s, d.InsertName k s = (d.Insert k (Object.Name s)).1)) ∧
    (k ∉ mapKeys d.Dict →
      (∀ n, (d.InsertInt k n).IntEntry k = some n) ∧
      (∀ f, (d.InsertFloat k f).Find k = (Object.Float f, true)) ∧
      (∀ s, (d.InsertString k s).StringLiteralEntry k = some s) ∧
      (∀ s, (d.InsertName k s).NameEntry k = some s)) ∧
    (k ∈ mapKeys d.Dict →
      (∀ n, d.InsertInt k n = d) ∧ (∀ f, d.InsertFloat k f = d) ∧
      (∀ s, d.InsertString k s = d) ∧ (∀ s, d.InsertName k s = d)) := by
  refine ⟨⟨fun _ => rfl, fun _ => rfl, fun _ => rfl, fun _ => rfl⟩, ?_, ?_⟩
  · intro h
    have hfind : ∀ v, ((d.Insert k v).1).Find k = (v, true) := by
      intro v
      rw [Insert_of_absent d k v h]
      exact mapIndex_mapAssign_self d.Dict k v
    refine ⟨?_, ?_, ?_, ?_⟩
    · intro n
      simp [PDFDict.InsertInt, PDFDict.IntEntry, hfind]
    · intro f
      exact hfind (Object.Float f)
    · intro s
      simp [PDFDict.InsertString, PDFDict.StringLiteralEntry, hfind]
    · intro s
      simp [PDFDict.InsertName, PDFDict.NameEntry, hfind]
  · intro h
    refine ⟨?_, ?_, ?_, ?_⟩ <;> intro x
    · simp [PDFDict.InsertInt, Insert_of_present d k _ h]
    · simp [PDFDict.InsertFloat, Insert_of_present d k _ h]
    · simp [PDFDict.InsertString, Insert_of_present d k _ h]
    · simp [PDFDict.InsertName, Insert_of_present d k _ h]

theorem typed_insert_shortcuts_witness :
    (samplePage.InsertInt "Count" 4).IntEntry "Count" = some 4 ∧
    (samplePage.InsertString "Title" "Cover").StringLiteralEntry "Title" = some "Cover" ∧
    (samplePage.InsertName "Subtype" "Form").NameEntry "Subtype" = some "Form" ∧
    samplePage.InsertInt "Rotate" 180 = samplePage ∧
    samplePage.InsertName "Type" "Catalog" = samplePage :=
  ⟨((typed_insert_shortcuts samplePage "Count").2.1 (by decide)).1 4,
   ((typed_insert_shortcuts samplePage "Title").2.1 (by decide)).2.2.1 "Cover",
   ((typed_insert_shortcuts samplePage "Subtype").2.1 (by decide)).2.2.2 "Form",
   ((typed_insert_shortcuts samplePage "Rotate").2.2 (by decide)).1 180,
   ((typed_insert_shortcuts samplePage "Type").2.2 (by decide)).2.2.2 "Catalog"⟩

/-! ## Frame -/

/-- C20: every mutation touches only its own key: for every dictionary, keys k
and k2 with k2 different from k and every value, Find of k2 returns the same
value and found flag after Insert, after Update and after Delete at k as
before the call. -/
theorem mutation_frame (d : PDFDict) (k k2 : String) (v : Object) (h : k2 ≠ k) :
    (d.Insert k v).1.Find k2 = d.Find k2 ∧
    (d.Update k v).Find k2 = d.Find k2 ∧
    (d.Delete k).1.Find k2 = d.Find k2 := by
  refine ⟨?_, ?_, ?_⟩
  · by_cases hk : k ∈ mapKeys d.Dict
    · rw [Insert_of_present d k v hk]
    · rw [Insert_of_absent d k v hk]
      exact mapIndex_mapAssign_ne d.Dict k k2 v h
  · cases v <;> first
      | rfl
      | exact mapIndex_mapAssign_ne d.Dict k k2 _ h
  · rcases hfd : d.Find k with ⟨w, found⟩
    cases found with
    | false => simp [PDFDict.Delete, hfd]
    | true =>
      have hd : d.Delete k = (⟨mapDelete d.Dict k⟩, w) := by simp [PDFDict.Delete, hfd]
      rw [hd]
      exact mapIndex_mapDelete_ne d.Dict k k2 h

theorem mutation_frame_witness :
    "Type" ≠ "Rotate" ∧
    ((samplePage.Insert "Rotate" (Object.Integer 0)).1.Find "Type" = samplePage.Find "Type" ∧
      (samplePage.Update "Rotate" (Object.Integer 0)).Find "Type" = samplePage.Find "Type" ∧
      (samplePage.Delete "Rotate").1.Find "Type" = samplePage.Find "Type") :=
  ⟨by decide, mutation_frame samplePage "Rotate" "Type" (Object.Integer 0) (by decide)⟩

/-! ## The entry count -/

theorem mapKeys_filter (m : List (String × Object)) (k : String) :
    mapKeys (m.filter (fun e => e.1 != k)) = (mapKeys m).filter (fun x => x != k) := by
  induction m with
  | nil => rfl
  | cons e m ih =>
    obtain ⟨k0, v0⟩ := e
    by_cases h : k0 = k
    · subst h
      rw [filter_ne_cons_eq, ih]
      simp [mapKeys, List.filter_cons, List.filter_filter]
    · rw [filter_ne_cons_ne m k k0 v0 h]
      simp only [mapKeys, ih]
      rw [List.filter_cons_of_pos (by simpa using h), List.filter_comm]

theorem filter_ne_of_not_mem (l : List String) (k : String) (h : k ∉ l) :
    l.filter (fun x => x != k) = l := by
  rw [List.filter_eq_self]
  intro x hx
  have : x ≠ k := fun e => h (e ▸ hx)
  simpa using this

theorem length_filter_ne_of_mem (l : List String) (k : String) (hn : l.Nodup) (h : k ∈ l) :
    (l.filter (fun x => x != k)).length + 1 = l.length := by
  induction l with
  | nil => simp at h
  | cons x xs ih =>
    rw [List.nodup_cons] at hn
    by_cases hx : x = k
    · subst hx
      rw [List.filter_cons_of_neg (by simp), filter_ne_of_not_mem xs x hn.1]
      rfl
    · have hk : k ∈ xs := by
        rcases List.mem_cons.mp h with h | h
        · exact absurd h.symm hx
        · exact h
      rw [List.filter_cons_of_pos (by simpa using hx)]
      simp only [List.length_cons]
      rw [ih hn.2 hk]

theorem mapKeys_mapAssign (m : List (String × Object)) (k : String) (v : Object) :
    mapKeys (mapAssign m k v) = k :: (mapKeys m).filter (fun x => x != k) := by
  simp [mapAssign, mapKeys, mapKeys_filter, List.filter_filter]

theorem mapLen_mapAssign_of_not_mem (m : List (String × Object)) (k : String) (v : Object)
    (h : k ∉ mapKeys m) : mapLen (mapAssign m k v) = mapLen m + 1 := by
  simp [mapLen, mapKeys_mapAssign, filter_ne_of_not_mem (mapKeys m) k h]

theorem mapLen_mapAssign_of_mem (m : List (String × Object)) (k : String) (v : Object)
    (h : k ∈ mapKeys m) : mapLen (mapAssign m k v) = mapLen m := by
  have := length_filter_ne_of_mem (mapKeys m) k (nodup_mapKeys m) h
  simp only [mapLen, mapKeys_mapAssign, List.length_cons]
  exact this

theorem mapLen_mapDelete_of_mem (m : List (String × Object)) (k : String)
    (h : k ∈ mapKeys m) : mapLen (mapDelete m k) + 1 = mapLen m := by
  simp only [mapLen, mapDelete, mapKeys_filter]
  exact length_filter_ne_of_mem (mapKeys m) k (nodup_mapKeys m) h

theorem mem_mapKeys_iff_mem_keys (m : List (String × Object)) (k : String) :
    k ∈ mapKeys m ↔ k ∈ m.map Prod.fst := by
  induction m with
  | nil => simp [mapKeys]
  | cons e m ih =>
    obtain ⟨k0, v0⟩ := e
    by_cases h : k = k0
    · simp [mapKeys, h]
    · simp [mapKeys, h, ih]

theorem mapLen_eq_card (m : List (String × Object)) :
    mapLen m = (m.map Prod.fst).toFinset.card := by
  have e : (m.map Prod.fst).toFinset = (mapKeys m).toFinset := by
    ext k
    simp only [List.mem_toFinset]
    exact (mem_mapKeys_iff_mem_keys m k).symm
  rw [e, List.toFinset_card_of_nodup (nodup_mapKeys m)]
  rfl

theorem Update_of_ne_nil (d : PDFDict) (k : String) (v : Object) (h : v ≠ Object.nil) :
    d.Update k v = ⟨mapAssign d.Dict k v⟩ := by
  cases v <;> first | exact absurd rfl h | rfl

theorem Delete_absent_unchanged (d : PDFDict) (k : String) (h : k ∉ mapKeys d.Dict) :
    (d.Delete k).1 = d := by
  have hf : d.Find k = (Object.nil, false) := mapIndex_of_not_mem d.Dict k h
  simp [PDFDict.Delete, hf]

/-- C18: the entry count Len is the number of distinct keys stored: it is 0 for
NewPDFDict; a successful Insert increases it by exactly 1 and a failed Insert
leaves it unchanged; Delete of a present key decreases it by exactly 1 and
Delete of an absent key leaves it unchanged; Update with nil leaves it
unchanged, and Update with a non-nil value increases it by 1 exactly when the
key was absent. -/
theorem Len_spec (d : PDFDict) (k : String) (v : Object) :
    d.Len = (d.Dict.map Prod.fst).toFinset.card ∧
    NewPDFDict.Len = 0 ∧
    ((d.Insert k v).2 = true → (d.Insert k v).1.Len = d.Len + 1) ∧
    ((d.Insert k v).2 = false → (d.Insert k v).1.Len = d.Len) ∧
    (k ∈ mapKeys d.Dict → (d.Delete k).1.Len + 1 = d.Len) ∧
    (k ∉ mapKeys d.Dict → (d.Delete k).1.Len = d.Len) ∧
    (d.Update k Object.nil).Len = d.Len ∧
    (v ≠ Object.nil →
      (d.Update k v).Len = if k ∈ mapKeys d.Dict then d.Len else d.Len + 1) := by
  refine ⟨mapLen_eq_card d.Dict, rfl, ?_, ?_, ?_, ?_, rfl, ?_⟩
  · intro h
    by_cases hk : k ∈ mapKeys d.Dict
    · rw [Insert_of_present d k v hk] at h
      simp at h
    · rw [Insert_of_absent d k v hk]
      exact mapLen_mapAssign_of_not_mem d.Dict k v hk
  · intro h
    by_cases hk : k ∈ mapKeys d.Dict
    · rw [Insert_of_present d k v hk]
    · rw [Insert_of_absent d k v hk] at h
      simp at h
  · intro hk
    have hf := (mem_mapKeys_iff_found d.Dict k).mp hk
    rcases hfd : d.Find k with ⟨w, found⟩
    have hfound : found = true := by
      have : (d.Find k).2 = true := hf
      rw [hfd] at this
      exact this
    subst hfound
    have hd : d.Delete k = (⟨mapDelete d.Dict k⟩, w) := by simp [PDFDict.Delete, hfd]
    rw [hd]
    exact mapLen_mapDelete_of_mem d.Dict k hk
  · intro hk
    rw [((Delete_absent_unchanged d k) hk)]
  · intro hv
    rw [Update_of_ne_nil d k v hv]
    by_cases hk : k ∈ mapKeys d.Dict
    · rw [if_pos hk]
      exact mapLen_mapAssign_of_mem d.Dict k v hk
    · rw [if_neg hk]
      exact mapLen_mapAssign_of_not_mem d.Dict k v hk

theorem Len_spec_witness :
    samplePage.Len = 5 ∧
    (samplePage.Insert "MediaBox" (Object.Array [])).1.Len = samplePage.Len + 1 ∧
    (samplePage.Insert "Rotate" (Object.Integer 0)).1.Len = samplePage.Len ∧
    (samplePage.Delete "Rotate").1.Len + 1 = samplePage.Len ∧
    (samplePage.Delete "Contents").1.Len = samplePage.Len ∧
    (samplePage.Update "Contents" (Object.Integer 0)).Len = samplePage.Len + 1 :=
  ⟨(Len_spec samplePage "Rotate" Object.nil).1.trans (by decide),
   (Len_spec samplePage "MediaBox" (Object.Array [])).2.2.1 rfl,
   (Len_spec samplePage "Rotate" (Object.Integer 0)).2.2.2.1 rfl,
   (Len_spec samplePage "Rotate" Object.nil).2.2.2.2.1 (by decide),
   (Len_spec samplePage "Contents" Object.nil).2.2.2.2.2.1 (by decide),
   ((Len_spec samplePage "Contents" (Object.Integer 0)).2.2.2.2.2.2.2 (by simp)).trans
     (by decide)⟩

/-! ## Null entries -/

theorem mapM_split {α β : Type} (f : α → Option β) (x : α) :
    ∀ (l1 l2 : List α) (parts : List β), (l1 ++ x :: l2).mapM f = some parts →
      ∃ p1 y p2, f x = some y ∧ parts = p1 ++ y :: p2 := by
  intro l1
  induction l1 with
  | nil =>
    intro l2 parts h
    rw [List.nil_append, List.mapM_cons] at h
    cases hx : f x with
    | none => rw [hx] at h; simp at h
    | some y =>
      cases hl : l2.mapM f with
      | none => rw [hx, hl] at h; simp at h
      | some p2 =>
        rw [hx, hl] at h
        simp at h
        exact ⟨[], y, p2, rfl, by rw [← h]; rfl⟩
  | cons a as ih =>
    intro l2 parts h
    rw [List.cons_append, List.mapM_cons] at h
    cases ha : f a with
    | none => rw [ha] at h; simp at h
    | some b =>
      cases hl : (as ++ x :: l2).mapM f with
      | none => rw [ha, hl] at h; simp at h
      | some rest =>
        rw [ha, hl] at h
        simp at h
        obtain ⟨p1, y, p2, hy, hrest⟩ := ih l2 rest hl
        exact ⟨b :: p1, y, p2, hy, by rw [← h, hrest]; rfl⟩

theorem PDFString_contains_entry (M : Methods) (d : PDFDict) (k : String) (s : String)
    (hk : k ∈ mapKeys d.Dict) (h : d.PDFString M = some s) :
    ∃ e pre post, entryPDFString M k (d.Find k).1 = some e ∧
      s = "<<" ++ pre ++ e ++ post ++ ">>" := by
  rw [PDFString_loop] at h
  obtain ⟨l1, l2, hl⟩ := List.append_of_mem ((mem_sortStrings _ k).mpr hk)
  rw [hl] at h
  cases hm : (l1 ++ k :: l2).mapM (fun k => entryPDFString M k (d.Find k).1) with
  | none => rw [hm] at h; simp at h
  | some parts =>
    rw [hm] at h
    simp only [Option.map_some', Option.some.injEq] at h
    obtain ⟨p1, e, p2, he, hparts⟩ := mapM_split _ k l1 l2 parts hm
    refine ⟨e, String.join p1, String.join p2, he, ?_⟩
    rw [← h, hparts]
    apply String.ext
    simp [String.data_join]

/-- C15: a present null entry is distinguishable from an absent key: for every
dictionary and key not in it, Insert of nil returns true and stores a present
null entry, after which Find returns nil and true, whereas on the dictionary
itself Find returns nil and false; the null entry counts toward the entry
count and is rendered by PDFString as the slash, the key and the word null. -/
theorem null_entry_present (M : Methods) (d : PDFDict) (k : String)
    (h : k ∉ mapKeys d.Dict) :
    (d.Insert k Object.nil).2 = true ∧
    (d.Insert k Object.nil).1.Find k = (Object.nil, true) ∧
    d.Find k = (Object.nil, false) ∧
    (d.Insert k Object.nil).1.Len = d.Len + 1 ∧
    (∀ s, (d.Insert k Object.nil).1.PDFString M = some s →
      ∃ pre post, s = "<<" ++ pre ++ ("/" ++ k ++ " null") ++ post ++ ">>") ∧
    (NewPDFDict.Insert "K" Object.nil).1.PDFString M = some "<</K null>>" := by
  have hi := Insert_of_absent d k Object.nil h
  have hfind : (d.Insert k Object.nil).1.Find k = (Object.nil, true) := by
    rw [hi]
    exact mapIndex_mapAssign_self d.Dict k Object.nil
  refine ⟨by rw [hi], hfind, mapIndex_of_not_mem d.Dict k h, ?_, ?_, rfl⟩
  · rw [hi]
    exact mapLen_mapAssign_of_not_mem d.Dict k Object.nil h
  · intro s hs
    have hk : k ∈ mapKeys (d.Insert k Object.nil).1.Dict := by
      rw [mem_mapKeys_iff_found]
      have := congrArg Prod.snd hfind
      exact this
    obtain ⟨e, pre, post, he, hse⟩ := PDFString_contains_entry M _ k s hk hs
    rw [hfind] at he
    simp only [entryPDFString, Option.some.injEq] at he
    exact ⟨pre, post, by rw [hse, he]⟩

theorem null_entry_present_witness :
    "Contents" ∉ mapKeys samplePage.Dict ∧
    (samplePage.Insert "Contents" Object.nil).2 = true ∧
    (samplePage.Insert "Contents" Object.nil).1.Find "Contents" = (Object.nil, true) ∧
    samplePage.Find "Contents" = (Object.nil, false) ∧
    (samplePage.Insert "Contents" Object.nil).1.Len = samplePage.Len + 1 ∧
    (samplePage.Insert "Contents" Object.nil).1.PDFString sampleMethods
      = some "<</Contents null/Hidden false/Parent 3 0 R/Resources<<>>/Rotate 90/Type/Page>>" :=
  ⟨by decide,
   (null_entry_present sampleMethods samplePage "Contents" (by decide)).1,
   (null_entry_present sampleMethods samplePage "Contents" (by decide)).2.1,
   (null_entry_present sampleMethods samplePage "Contents" (by decide)).2.2.1,
   (null_entry_present sampleMethods samplePage "Contents" (by decide)).2.2.2.1,
   by decide⟩

/-! ## The fatal branch of the canonical form -/

theorem mapM_eq_none_iff {α β : Type} (f : α → Option β) (l : List α) :
    l.mapM f = none ↔ ∃ x ∈ l, f x = none := by
  induction l with
  | nil =>
    rw [List.mapM_nil]
    simp
  | cons a as ih =>
    rw [List.mapM_cons]
    cases ha : f a with
    | none => simp [ha]
    | some b =>
      cases hl : as.mapM f with
      | none =>
        obtain ⟨x, hx, hfx⟩ := ih.mp hl
        simp only [Option.pure_def, Option.bind_eq_bind, Option.some_bind, Option.none_bind,
          true_iff]
        exact ⟨x, List.mem_cons_of_mem a hx, hfx⟩
      | some bs =>
        simp only [Option.pure_def, Option.bind_eq_bind, Option.some_bind]
        constructor
        · intro h
          simp at h
        · intro hex
          obtain ⟨x, hx, hfx⟩ := hex
          rcases List.mem_cons.mp hx with hx | hx
          · rw [hx, ha] at hfx
            simp at hfx
          · have := ih.mpr ⟨x, hx, hfx⟩
            rw [hl] at this
            simp at this

theorem PDFString_none_iff (M : Methods) (m : List (String × Object)) :
    PDFDict.PDFString M ⟨m⟩ = none ↔
      ∃ k v, m.lookup k = some v ∧ entryPDFString M k v = none := by
  rw [PDFString_loop, Option.map_eq_none', mapM_eq_none_iff]
  constructor
  · rintro ⟨k, hk, he⟩
    rw [mem_sortStrings, mem_mapKeys] at hk
    cases hl : m.lookup k with
    | none => simp [hl] at hk
    | some v =>
      refine ⟨k, v, hl, ?_⟩
      simpa [PDFDict.Find, mapIndex, hl] using he
  · rintro ⟨k, v, hl, he⟩
    refine ⟨k, ?_, ?_⟩
    · rw [mem_sortStrings, mem_mapKeys]
      simp [hl]
    · simpa [PDFDict.Find, mapIndex, hl] using he

theorem entryPDFString_none_iff (M : Methods) (k : String) (v : Object) :
    entryPDFString M k v = none ↔
      (unknownKind v = true ∨ arrayFails M v = true) ∨
        ∃ sub, v = Object.PDFDict sub ∧ PDFDict.PDFString M ⟨sub⟩ = none := by
  cases v with
  | PDFDict sub =>
    rw [entryPDFString_PDFDict]
    simp [unknownKind, arrayFails]
  | Array a =>
    cases ha : M.arrayPDFString a <;> simp [entryPDFString, unknownKind, arrayFails, ha]
  | _ => simp [entryPDFString, unknownKind, arrayFails]

theorem PDFString_none_of_holds (M : Methods) (m : List (String × Object))
    (h : HoldsNested (fun v => unknownKind v = true ∨ arrayFails M v = true) m) :
    PDFDict.PDFString M ⟨m⟩ = none := by
  induction h with
  | here m k v hl hP =>
    rw [PDFString_none_iff]
    exact ⟨k, v, hl, (entryPDFString_none_iff M k v).mpr (Or.inl hP)⟩
  | nested m k sub hl _ ih =>
    rw [PDFString_none_iff]
    exact ⟨k, _, hl, (entryPDFString_none_iff M k _).mpr (Or.inr ⟨sub, rfl, ih⟩)⟩

mutual
theorem holds_of_entry_none (M : Methods) :
    ∀ v : Object, ∀ k, entryPDFString M k v = none →
      (unknownKind v = true ∨ arrayFails M v = true) ∨
        ∃ sub, v = Object.PDFDict sub ∧
          HoldsNested (fun v => unknownKind v = true ∨ arrayFails M v = true) sub
  | Object.PDFDict sub, k, h => by
    rw [entryPDFString_PDFDict, Option.map_eq_none', PDFString_none_iff] at h
    obtain ⟨k2, v2, hl, he⟩ := h
    refine Or.inr ⟨sub, rfl, ?_⟩
    rcases holds_of_entries_none M sub k2 v2 hl he with hb | ⟨sub2, hv, hs⟩
    · exact HoldsNested.here sub k2 v2 hl hb
    · rw [hv] at hl
      exact HoldsNested.nested sub k2 sub2 hl hs
  | Object.Array a, k, h => Or.inl (by
      rcases (entryPDFString_none_iff M k _).mp h with hb | ⟨sub, hv, _⟩
      · exact hb
      · exact Object.noConfusion hv)
  | Object.StreamDict _ _, _, _ => Or.inl (Or.inl rfl)
  | Object.other _, _, _ => Or.inl (Or.inl rfl)
  | Object.nil, _, h => by simp [entryPDFString] at h
  | Object.Boolean _, _, h => by simp [entryPDFString] at h
  | Object.Integer _, _, h => by simp [entryPDFString] at h
  | Object.Float _, _, h => by simp [entryPDFString] at h
  | Object.Name _, _, h => by simp [entryPDFString] at h
  | Object.StringLiteral _, _, h => by simp [entryPDFString] at h
  | Object.HexLiteral _, _, h => by simp [entryPDFString] at h
  | Object.IndirectRef _, _, h => by simp [entryPDFString] at h
theorem holds_of_entries_none (M : Methods) :
    ∀ m : List (String × Object), ∀ k v, m.lookup k = some v →
      entryPDFString M k v = none →
      (unknownKind v = true ∨ arrayFails M v = true) ∨
        ∃ sub, v = Object.PDFDict sub ∧
          HoldsNested (fun v => unknownKind v = true ∨ arrayFails M v = true) sub
  | [], k, v, hl, _ => by simp at hl
  | (k0, v0) :: rest, k, v, hl, he => by
    rw [List.lookup_cons] at hl
    cases hk : (k == k0) with
    | true =>
      rw [hk] at hl
      simp at hl
      rw [← hl] at he ⊢
      exact holds_of_entry_none M v0 k he
    | false =>
      rw [hk] at hl
      exact holds_of_entries_none M rest k v hl he
end

theorem holds_of_PDFString_none (M : Methods) (m : List (String × Object))
    (h : PDFDict.PDFString M ⟨m⟩ = none) :
    HoldsNested (fun v => unknownKind v = true ∨ arrayFails M v = true) m := by
  rw [PDFString_none_iff] at h
  obtain ⟨k, v, hl, he⟩ := h
  rcases holds_of_entries_none M m k v hl he with hb | ⟨sub, hv, hs⟩
  · exact HoldsNested.here m k v hl hb
  · rw [hv] at hl
    exact HoldsNested.nested m k sub hl hs

theorem HoldsNested_or (P Q : Object → Prop) (m : List (String × Object)) :
    HoldsNested (fun v => P v ∨ Q v) m ↔ HoldsNested P m ∨ HoldsNested Q m := by
  constructor
  · intro h
    induction h with
    | here m k v hl hP =>
      rcases hP with hP | hQ
      · exact Or.inl (HoldsNested.here m k v hl hP)
      · exact Or.inr (HoldsNested.here m k v hl hQ)
    | nested m k sub hl _ ih =>
      rcases ih with ih | ih
      · exact Or.inl (HoldsNested.nested m k sub hl ih)
      · exact Or.inr (HoldsNested.nested m k sub hl ih)
  · intro h
    rcases h with h | h
    · induction h with
      | here m k v hl hP => exact HoldsNested.here m k v hl (Or.inl hP)
      | nested m k sub hl _ ih => exact HoldsNested.nested m k sub hl ih
    · induction h with
      | here m k v hl hP => exact HoldsNested.here m k v hl (Or.inr hP)
      | nested m k sub hl _ ih => exact HoldsNested.nested m k sub hl ih

/-- C11: PDFString ends the program in its fatal branch if and only if some
entry of the dictionary, or of a dictionary nested in it, holds a non-null
value whose kind is outside the closed set; for every dictionary whose values
are all null or from that set, at every level, a string is returned.  The
array serializer is declared outside dict.go: the statement is for
dictionaries none of whose arrays it ends the program on, and the first part
says what happens in general. -/
theorem PDFString_fatal_iff (M : Methods) (d : PDFDict) :
    (d.PDFString M = none ↔
      HoldsNested (fun v => unknownKind v = true) d.Dict ∨
        HoldsNested (fun v => arrayFails M v = true) d.Dict) ∧
    (¬ HoldsNested (fun v => arrayFails M v = true) d.Dict →
      (d.PDFString M = none ↔ HoldsNested (fun v => unknownKind v = true) d.Dict)) ∧
    (¬ HoldsNested (fun v => arrayFails M v = true) d.Dict →
      ¬ HoldsNested (fun v => unknownKind v = true) d.Dict →
      ∃ s, d.PDFString M = some s) := by
  have hmain : d.PDFString M = none ↔
      HoldsNested (fun v => unknownKind v = true) d.Dict ∨
        HoldsNested (fun v => arrayFails M v = true) d.Dict := by
    rw [← HoldsNested_or]
    exact ⟨holds_of_PDFString_none M d.Dict, PDFString_none_of_holds M d.Dict⟩
  refine ⟨hmain, ?_, ?_⟩
  · intro ha
    rw [hmain]
    exact ⟨fun h => h.resolve_right ha, Or.inl⟩
  · intro ha hu
    cases hs : d.PDFString M with
    | some s => exact ⟨s, rfl⟩
    | none => exact absurd (hmain.mp hs) (fun h => h.elim hu ha)

theorem anyValue_of_self (p : Object → Bool) (v : Object) (h : p v = true) :
    anyValue p v = true := by
  cases v <;> simp [anyValue, h]

theorem anyEntries_of_lookup (p : Object → Bool) (m : List (String × Object)) (k : String)
    (v : Object) (hl : m.lookup k = some v) (h : anyValue p v = true) :
    anyEntries p m = true := by
  induction m with
  | nil => simp at hl
  | cons e m ih =>
    obtain ⟨k0, v0⟩ := e
    rw [List.lookup_cons] at hl
    simp only [anyEntries, Bool.or_eq_true]
    cases hk : (k == k0) with
    | true =>
      rw [hk] at hl
      simp at hl
      rw [hl]
      exact Or.inl h
    | false =>
      rw [hk] at hl
      exact Or.inr (ih hl)

theorem anyEntries_of_holds (p : Object → Bool) (m : List (String × Object))
    (h : HoldsNested (fun v => p v = true) m) : anyEntries p m = true := by
  induction h with
  | here m k v hl hP => exact anyEntries_of_lookup p m k v hl (anyValue_of_self p v hP)
  | nested m k sub hl _ ih =>
    exact anyEntries_of_lookup p m k _ hl (by simp [anyValue, ih])

theorem PDFString_fatal_iff_witness :
    (sampleDeepUnknown.PDFString sampleMethods = none ∧
      HoldsNested (fun v => unknownKind v = true) sampleDeepUnknown.Dict) ∧
    (¬ HoldsNested (fun v => unknownKind v = true) sampleDeepClosed.Dict ∧
      ∃ s, sampleDeepClosed.PDFString sampleMethods = some s) :=
  ⟨⟨((PDFString_fatal_iff sampleMethods sampleDeepUnknown).2.1
        (fun h => absurd (anyEntries_of_holds _ _ h) (by decide))).mpr
        (HoldsNested.nested _ "Kids" _ rfl
          (HoldsNested.nested _ "Inner" _ rfl (HoldsNested.here _ "X" _ rfl rfl))),
      HoldsNested.nested _ "Kids" _ rfl
        (HoldsNested.nested _ "Inner" _ rfl (HoldsNested.here _ "X" _ rfl rfl))⟩,
    ⟨fun h => absurd (anyEntries_of_holds _ _ h) (by decide),
      (PDFString_fatal_iff sampleMethods sampleDeepClosed).2.2
        (fun h => absurd (anyEntries_of_holds _ _ h) (by decide))
        (fun h => absurd (anyEntries_of_holds _ _ h) (by decide))⟩⟩

/-! ## The debug form -/

theorem mapM_isSome_of_forall {α β : Type} (f : α → Option β) (l : List α)
    (h : ∀ x ∈ l, ∃ y, f x = some y) : ∃ ys, l.mapM f = some ys := by
  cases hm : l.mapM f with
  | some ys => exact ⟨ys, rfl⟩
  | none =>
    obtain ⟨x, hx, hfx⟩ := (mapM_eq_none_iff f l).mp hm
    obtain ⟨y, hy⟩ := h x hx
    rw [hy] at hfx
    simp at hfx

theorem stringsRepeat_tabs (n : Nat) : stringsRepeat "\t" (n : Int) = some (tabs n) := by
  have hj : String.join (List.replicate n "\t") = tabs n := by
    apply String.ext
    rw [String.data_join]
    induction n with
    | zero => rfl
    | succ n ih =>
      simp only [List.replicate_succ, List.map_cons, List.flatten_cons, ih, tabs]
      rfl
  simp [stringsRepeat, hj]

theorem stringsRepeat_of_neg (level : Int) (h : level < 0) :
    stringsRepeat "\t" level = none := by
  simp [stringsRepeat, h]

theorem indentedString_of_values (M : Methods) (m : List (String × Object)) (depth : Nat)
    (hd : 1 ≤ depth) (g : Object → String)
    (h : ∀ k v, m.lookup k = some v → valueIndentedString M depth v = some (g v)) :
    PDFDict.indentedString M ⟨m⟩ depth =
      some ("<<\n" ++ String.join ((sortStrings (mapKeys m)).map
        (fun k => tabs depth ++ "<" ++ k ++ ", " ++ g (mapIndex m k).1 ++ ">\n"))
        ++ tabs (depth - 1) ++ ">>") := by
  rw [indentedString_loop, stringsRepeat_tabs]
  have hc : ((depth : Int) - 1) = ((depth - 1 : Nat) : Int) := by omega
  have hm : (sortStrings (mapKeys m)).mapM (fun k =>
        match valueIndentedString M depth ((PDFDict.mk m).Find k).1 with
        | some s => some (tabs depth ++ "<" ++ k ++ ", " ++ s ++ ">\n")
        | none => none)
      = some ((sortStrings (mapKeys m)).map
        (fun k => tabs depth ++ "<" ++ k ++ ", " ++ g (mapIndex m k).1 ++ ">\n")) := by
    apply mapM_eq_some_map
    intro k hk
    rw [mem_sortStrings, mem_mapKeys] at hk
    cases hl : m.lookup k with
    | none => simp [hl] at hk
    | some v =>
      have hfind : ((PDFDict.mk m).Find k).1 = v := by simp [PDFDict.Find, mapIndex, hl]
      have hidx : (mapIndex m k).1 = v := by simp [mapIndex, hl]
      rw [hfind, hidx, h k v hl]
  simp only [hm, hc, stringsRepeat_tabs]
  congr 1
  apply String.ext
  simp [String.data_join]

mutual
theorem valueIndentedString_eq (M : Methods) :
    ∀ (v : Object) (depth : Nat), 1 ≤ depth →
      valueIndentedString M depth v = some (debugValue M depth v)
  | Object.PDFDict sub, depth, _ => by
    have hsub := indentedString_of_values M sub (depth + 1) (by omega)
      (debugValue M ((depth + 1 : Nat) : Int))
      (entriesIndentedString_eq M sub (depth + 1) (by omega))
    rw [valueIndentedString_PDFDict]
    simp only [debugValue]
    have hc : ((depth : Int) + 1) = ((depth + 1 : Nat) : Int) := by omega
    rw [hc, hsub]
    rfl
  | Object.Array _, _, _ => by simp [valueIndentedString, debugValue]
  | Object.nil, _, _ => by simp [valueIndentedString, debugValue]
  | Object.Boolean _, _, _ => by simp [valueIndentedString, debugValue]
  | Object.Integer _, _, _ => by simp [valueIndentedString, debugValue]
  | Object.Float _, _, _ => by simp [valueIndentedString, debugValue]
  | Object.Name _, _, _ => by simp [valueIndentedString, debugValue]
  | Object.StringLiteral _, _, _ => by simp [valueIndentedString, debugValue]
  | Object.HexLiteral _, _, _ => by simp [valueIndentedString, debugValue]
  | Object.IndirectRef _, _, _ => by simp [valueIndentedString, debugValue]
  | Object.StreamDict _ _, _, _ => by simp [valueIndentedString, debugValue]
  | Object.other _, _, _ => by simp [valueIndentedString, debugValue]
theorem entriesIndentedString_eq (M : Methods) :
    ∀ (m : List (String × Object)) (depth : Nat), 1 ≤ depth →
      ∀ k v, m.lookup k = some v →
        valueIndentedString M depth v = some (debugValue M depth v)
  | [], _, _ => by intro k v hl; simp at hl
  | (k0, v0) :: rest, depth, hd => by
    intro k v hl
    rw [List.lookup_cons] at hl
    cases hk : (k == k0) with
    | true =>
      rw [hk] at hl
      simp at hl
      rw [← hl]
      exact valueIndentedString_eq M v0 depth hd
    | false =>
      rw [hk] at hl
      exact entriesIndentedString_eq M rest depth hd k v hl
end

theorem indentedString_of_lt_one (M : Methods) (d : PDFDict) (level : Int) (h : level < 1) :
    d.indentedString M level = none := by
  rw [indentedString_loop]
  by_cases h0 : level < 0
  · rw [stringsRepeat_of_neg level h0]
  · have hz : level = ((0 : Nat) : Int) := by omega
    rw [hz, stringsRepeat_tabs]
    have hneg : stringsRepeat "\t" (((0 : Nat) : Int) - 1) = none :=
      stringsRepeat_of_neg _ (by omega)
    simp only [hneg]
    cases (sortStrings (mapKeys d.Dict)).mapM (fun k =>
      match valueIndentedString M ((0 : Nat) : Int) (d.Find k).1 with
      | some s => some (tabs 0 ++ "<" ++ k ++ ", " ++ s ++ ">\n")
      | none => none) <;> rfl

/-- C12: the debug form never aborts: for every dictionary, whatever it holds
(null values, values of unknown kind, dictionaries nested to any depth),
String, which is indentedString at level 1, returns a string; so does
indentedString at every level from 1 on, and a nested dictionary is written by
a call at the next level, so that the repeat count of the closing indent,
level minus 1, is never negative; a value of unknown kind is rendered by its
default textual form.  Below level 1 the repeat count is negative and the call
panics. -/
theorem String_never_aborts (M : Methods) (d : PDFDict) :
    d.String M = d.indentedString M 1 ∧
    (∃ s, d.String M = some s) ∧
    (∀ depth : Nat, 1 ≤ depth → ∃ s, d.indentedString M depth = some s) ∧
    (∀ (level : Int) (sub : List (String × Object)),
      valueIndentedString M level (Object.PDFDict sub)
        = PDFDict.indentedString M ⟨sub⟩ (level + 1)) ∧
    (∀ (level : Int) (t : Nat),
      valueIndentedString M level (Object.other t) = some (M.valueString (Object.other t))) ∧
    (∀ (level : Int) (es : List (String × Object)) (st : List Nat),
      valueIndentedString M level (Object.StreamDict es st)
        = some (M.valueString (Object.StreamDict es st))) ∧
    (∀ level : Int,
      valueIndentedString M level Object.nil = some (M.valueString Object.nil)) ∧
    (∀ level : Int, level < 1 → d.indentedString M level = none) := by
  have hall : ∀ depth : Nat, 1 ≤ depth → ∃ s, d.indentedString M depth = some s := by
    intro depth hd
    exact ⟨_, indentedString_of_values M d.Dict depth hd (debugValue M depth)
      (entriesIndentedString_eq M d.Dict depth hd)⟩
  refine ⟨rfl, hall 1 (le_refl 1), hall, valueIndentedString_PDFDict M, ?_, ?_, ?_,
    indentedString_of_lt_one M d⟩
  · intro level t
    simp [valueIndentedString]
  · intro level es st
    simp [valueIndentedString]
  · intro level
    simp [valueIndentedString]

theorem String_never_aborts_witness :
    sampleDebug.String sampleMethods
      = some "<<\n\t<A, <<\n\t\t<B, <<\n\t\t\t<C, ?>\n\t\t>>>\n\t>>>\n\t<N, 5>\n\t<Z, <nil>>\n>>" ∧
    (∃ s, sampleDebug.indentedString sampleMethods (3 : Nat) = some s) ∧
    sampleDebug.indentedString sampleMethods 0 = none :=
  ⟨by decide, (String_never_aborts sampleMethods sampleDebug).2.2.1 3 (by decide),
   (String_never_aborts sampleMethods sampleDebug).2.2.2.2.2.2.2 0 (by decide)⟩

theorem debugValue_of_flat (M : Methods) (m : List (String × Object))
    (h : flatEntries m = true) (k : String) (depth : Int) :
    debugValue M depth (mapIndex m k).1 = M.valueString (mapIndex m k).1 := by
  unfold mapIndex
  cases hl : m.lookup k with
  | none => rfl
  | some v =>
    have hmem : (k, v) ∈ m := by
      clear h
      induction m with
      | nil => simp at hl
      | cons e m ih =>
        obtain ⟨k0, v0⟩ := e
        rw [List.lookup_cons] at hl
        cases hk : (k == k0) with
        | true =>
          rw [hk] at hl
          simp at hl
          have hkk : k = k0 := by simpa using hk
          rw [hkk, hl]
          exact List.mem_cons_self _ _
        | false =>
          rw [hk] at hl
          exact List.mem_cons_of_mem _ (ih hl)
    have hv := (List.all_eq_true.mp h) (k, v) hmem
    cases v <;> simp at hv <;> rfl

/-- C19: String lays the debug form out one entry per line with increasing
indentation.  A dictionary written at nesting depth d, the top level being
depth 1, has each of its entry lines prefixed by exactly d tabs and its closing
bracket by exactly d minus 1 tabs, a nested dictionary being written at the
next depth.  For a dictionary holding no nested dictionary or array, String is
the opening bracket and a newline, then for each key in ascending order one
tab, the key and the value in its default textual form between angle brackets,
and a newline, then the closing bracket with no leading tab.  The empty
dictionary gives the opening bracket, a newline and the closing bracket. -/
theorem String_layout (M : Methods) (d : PDFDict) :
    (∀ depth : Nat, 1 ≤ depth →
      d.indentedString M depth =
        some ("<<\n" ++ String.join ((sortStrings (mapKeys d.Dict)).map
          (fun k => tabs depth ++ "<" ++ k ++ ", " ++ debugValue M depth (d.Find k).1 ++ ">\n"))
          ++ tabs (depth - 1) ++ ">>")) ∧
    (∀ (depth : Nat) (sub : List (String × Object)),
      debugValue M depth (Object.PDFDict sub)
        = ((PDFDict.mk sub).indentedString M ((depth + 1 : Nat) : Int)).getD "") ∧
    (flatEntries d.Dict = true →
      d.String M =
        some ("<<\n" ++ String.join ((sortStrings (mapKeys d.Dict)).map
          (fun k => "\t<" ++ k ++ ", " ++ M.valueString (d.Find k).1 ++ ">\n")) ++ ">>")) ∧
    NewPDFDict.String M = some "<<\n>>" := by
  have hgen : ∀ depth : Nat, 1 ≤ depth →
      d.indentedString M depth =
        some ("<<\n" ++ String.join ((sortStrings (mapKeys d.Dict)).map
          (fun k => tabs depth ++ "<" ++ k ++ ", " ++ debugValue M depth (d.Find k).1 ++ ">\n"))
          ++ tabs (depth - 1) ++ ">>") := fun depth hd =>
    indentedString_of_values M d.Dict depth hd (debugValue M depth)
      (entriesIndentedString_eq M d.Dict depth hd)
  refine ⟨hgen, ?_, ?_, rfl⟩
  · intro depth sub
    simp only [debugValue]
    have hc : ((depth : Int) + 1) = ((depth + 1 : Nat) : Int) := by omega
    rw [hc]
  · intro hflat
    have h1 := hgen 1 (le_refl 1)
    have e : d.String M = d.indentedString M ((1 : Nat) : Int) := rfl
    rw [e, h1]
    have hf : (fun k => tabs 1 ++ "<" ++ k ++ ", " ++ debugValue M ((1 : Nat) : Int) (d.Find k).1
          ++ ">\n")
        = (fun k => "\t<" ++ k ++ ", " ++ M.valueString (d.Find k).1 ++ ">\n") := by
      funext k
      have := debugValue_of_flat M d.Dict hflat k ((1 : Nat) : Int)
      simp only [PDFDict.Find]
      rw [this]
      rfl
    rw [hf]
    congr 1
    apply String.ext
    simp [String.data_append, tabs]

theorem String_layout_witness :
    flatEntries sampleLinearized.Dict = true ∧
    sampleLinearized.String sampleMethods = some "<<\n\t<L, 4096>\n\t<Linearized, 1>\n>>" ∧
    sampleDebug.indentedString sampleMethods (2 : Nat) =
      some ("<<\n" ++ String.join ((sortStrings (mapKeys sampleDebug.Dict)).map
        (fun k => tabs 2 ++ "<" ++ k ++ ", "
          ++ debugValue sampleMethods (2 : Nat) (sampleDebug.Find k).1 ++ ">\n"))
        ++ tabs (2 - 1) ++ ">>") :=
  ⟨by decide,
   ((String_layout sampleMethods sampleLinearized).2.2.1 (by decide)).trans (by decide),
   (String_layout sampleMethods sampleDebug).1 2 (by decide)⟩

end Pdfcpu
